import Mathlib

/-!
# esalert: value marshaling, script cache, worker loop and alert pipeline

A shallow embedding of `luautil/luautil.go` and `alert/alert.go`.

* Go panics and fatal exits are made explicit with `Except`.
* `lua.LNumber` is a Go `float64`; finite values are carried exactly as
  `mant * 2 ^ exp`, so that integrality tests and integer conversions are
  plain integer arithmetic.
* An engine table is the list of its entries in the order `ForEach` visits
  them.  Tables are finite trees here: a table that contains itself has no
  counterpart.
-/

namespace Esalert

/-! ## Engine numbers (`lua.LNumber`, a Go `float64`) -/

/-- A `float64`: a finite value `mant * 2 ^ exp`, an infinity, or NaN.
Negative zero is identified with zero. -/
inductive LNumber
  | finite (mant : Int) (exp : Int)
  | inf (negative : Bool)
  | nan

/-- The finite values a `float64` can hold: 53 bits of mantissa and a binary
exponent between -1074 and 971. -/
def LNumber.isFloat64 : LNumber → Bool
  | .finite m e => decide (m.natAbs < 2 ^ 53) && decide (-1074 ≤ e) && decide (e ≤ 971)
  | _ => true

/-- Go `==` on two `float64` values: numeric equality, NaN unequal to everything. -/
def LNumber.eq : LNumber → LNumber → Bool
  | .finite m₁ e₁, .finite m₂ e₂ =>
    let e := min e₁ e₂
    decide (m₁ * 2 ^ (e₁ - e).toNat = m₂ * 2 ^ (e₂ - e).toNat)
  | .inf a, .inf b => a == b
  | _, _ => false

/-- Whether the number is a finite whole number. -/
def LNumber.isIntegral : LNumber → Bool
  | .finite m e => decide (0 ≤ e) || decide (((2 : Int) ^ (-e).toNat) ∣ m)
  | _ => false

/-- The mathematical integer a finite number truncates to (toward zero). -/
def LNumber.trunc (m e : Int) : Int :=
  if 0 ≤ e then m * 2 ^ e.toNat else Int.tdiv m (2 ^ (-e).toNat)

/-- The two 64-bit targets whose float-to-integer instruction differs when the
value does not fit (the Go specification leaves that result to the
implementation). -/
inductive Arch
  | amd64
  | arm64

def minInt64 : Int := -(2 ^ 63)

def maxInt64 : Int := 2 ^ 63 - 1

/-- Result of `int(f)` when `f` is NaN. -/
def Arch.nanInt : Arch → Int
  | .amd64 => minInt64
  | .arm64 => 0

/-- Result of `int(f)` when `f` lies above the `int` range. -/
def Arch.posOverflow : Arch → Int
  | .amd64 => minInt64
  | .arm64 => maxInt64

/-- Result of `int(f)` when `f` lies below the `int` range. -/
def Arch.negOverflow : Arch → Int
  | .amd64 => minInt64
  | .arm64 => minInt64

/-- The longest `[]interface{}` that `make` accepts: `makeslice` panics with
"len out of range" when the element size (16 bytes for an interface value)
times the length exceeds `maxAlloc`, which is `2 ^ 48` bytes on both targets.
Running out of memory below that length is a matter of the machine, not of
the program, and has no counterpart here. -/
def Arch.maxSliceLen : Arch → Nat
  | .amd64 => 2 ^ 44
  | .arm64 => 2 ^ 44

/-- Go `int(f)` for a `float64` f on a 64-bit target. -/
def goInt (a : Arch) : LNumber → Int
  | .finite m e =>
    let t := LNumber.trunc m e
    if t < minInt64 then a.negOverflow
    else if maxInt64 < t then a.posOverflow
    else t
  | .inf true => a.negOverflow
  | .inf false => a.posOverflow
  | .nan => a.nanInt

/-- How many low bits of a magnitude below `2 ^ 64` do not fit a 53-bit
mantissa: the largest `k ≤ fuel` with `2 ^ (52 + k) ≤ n`, or 0. -/
def excessBits (n : Nat) : Nat → Nat
  | 0 => 0
  | k + 1 => if 2 ^ (53 + k) ≤ n then k + 1 else excessBits n k

/-- Go `float64(i)` for a 64-bit integer i: exact when the magnitude fits 53
bits, otherwise rounded to nearest, ties to even. -/
def float64OfInt (i : Int) : LNumber :=
  let n := i.natAbs
  let sh := excessBits n 11
  if sh = 0 then .finite i 0
  else
    let q := n / 2 ^ sh
    let r := n % 2 ^ sh
    let half := 2 ^ (sh - 1)
    let q' := if half < r ∨ (r = half ∧ q % 2 = 1) then q + 1 else q
    .finite (i.sign * q') sh

/-! ## Engine values and host values -/

/-- A compiled chunk: the result of `LState.Load` on a source text under a
chunk name. -/
structure LFunction where
  chunk : String
  src : String

/-- Values of the embedded engine (`lua.LValue`). -/
inductive LValue
  | nil
  | bool (b : Bool)
  | number (f : LNumber)
  | str (s : String)
  | table (entries : List (LValue × LValue))
  | function (fn : LFunction)
  | userData
  | thread
  | channel

/-- What `PullArbitraryValue` hands back (a Go `interface{}`): `nil`, `bool`,
`int`, `float64`, `string`, `[]interface{}` or `map[string]interface{}`.  A map
is the list of its entries, at most one per key. -/
inductive HostValue
  | nil
  | bool (b : Bool)
  | int (i : Int)
  | float (f : LNumber)
  | str (s : String)
  | seq (xs : List HostValue)
  | map (m : List (String × HostValue))

/-- The ways the conversions stop the goroutine. -/
inductive Panic
  | unknownLuaType
  | typeAssertion
  | unknownPushType
  | reflect
  | makeslice

/-- Go `m[k] = v` on a map kept as an entry list. -/
def mapSet {β : Type} : List (String × β) → String → β → List (String × β)
  | [], k, v => [(k, v)]
  | (k', v') :: rest, k, v =>
    if k' = k then (k, v) :: rest else (k', v') :: mapSet rest k v

/-- Go `m[k]` on a map kept as an entry list. -/
def mapGet {β : Type} : List (String × β) → String → Option β
  | [], _ => none
  | (k', v') :: rest, k => if k' = k then some v' else mapGet rest k

/-- ASCII digit of a number below ten. -/
def digitChar (d : Nat) : Char := Char.ofNat (48 + d)

/-- Decimal digits of `n`, most significant first, in front of `acc`. -/
def decimalAux : Nat → Nat → List Char → List Char
  | 0, _, acc => acc
  | fuel + 1, n, acc =>
    if n < 10 then digitChar n :: acc
    else decimalAux fuel (n / 10) (digitChar (n % 10) :: acc)

/-- Go `strconv.Itoa`. -/
def Itoa (i : Int) : String :=
  match i with
  | Int.ofNat n => String.mk (decimalAux (n + 1) n [])
  | Int.negSucc n => String.mk ('-' :: decimalAux (n + 2) (n + 1) [])

/-! ## `pullArbitraryValueInner` -/

/-- The slice built after the `ForEach` loop: `ms[i] = m[strconv.Itoa(i+1)]`
for `i < arrSize`, a missing key reading as `nil`. -/
def sliceOfMap (m : List (String × HostValue)) (arrSize : Nat) : List HostValue :=
  (List.range arrSize).map fun (i : Nat) => (mapGet m (Itoa (Int.ofNat i + 1))).getD HostValue.nil

mutual
/-- Engine value to host value (`luautil.go`, `pullArbitraryValueInner`). -/
def pullArbitraryValueInner (a : Arch) : LValue → Except Panic HostValue
  | .nil => .ok .nil
  | .bool b => .ok (.bool b)
  | .number f =>
    if LNumber.eq f (float64OfInt (goInt a f)) then .ok (.int (goInt a f))
    else .ok (.float f)
  | .str s => .ok (.str s)
  | .table tb =>
    match pullForEach a tb [] 0 with
    | .error p => .error p
    | .ok (m, arrSize) =>
      if 0 ≤ arrSize then
        if arrSize.toNat ≤ a.maxSliceLen then .ok (.seq (sliceOfMap m arrSize.toNat))
        else .error .makeslice
      else .ok (.map m)
  | .function _ => .error .unknownLuaType
  | .userData => .error .unknownLuaType
  | .thread => .error .unknownLuaType
  | .channel => .error .unknownLuaType
/-- The `tb.ForEach` callback of `pullArbitraryValueInner`, run over the
entries in visiting order with the map `m` and `arrSize` as running state.
`ForEach` passes over entries whose value is `nil`. -/
def pullForEach (a : Arch) :
    List (LValue × LValue) → List (String × HostValue) → Int →
      Except Panic (List (String × HostValue) × Int)
  | [], m, arrSize => .ok (m, arrSize)
  | (_, .nil) :: rest, m, arrSize => pullForEach a rest m arrSize
  | (k, val) :: rest, m, arrSize =>
    match pullArbitraryValueInner a k with
    | .error p => .error p
    | .ok (.int keyi) =>
      match pullArbitraryValueInner a val with
      | .error p => .error p
      | .ok v =>
        pullForEach a rest (mapSet m (Itoa keyi) v)
          (if 0 ≤ arrSize ∧ arrSize < keyi then keyi else arrSize)
    | .ok (.str key) =>
      match pullArbitraryValueInner a val with
      | .error p => .error p
      | .ok v => pullForEach a rest (mapSet m key v) (-1)
    | .ok _ => .error .typeAssertion
end

/-- Exported entry point: convert the value on top of the engine stack. -/
def PullArbitraryValue (a : Arch) (top : LValue) : Except Panic HostValue :=
  pullArbitraryValueInner a top

/-! ## Host values handed to `pushArbitraryValue` -/

/-- The Go integer types `pushArbitraryValue` has a case for. -/
inductive IntKind
  | int | int8 | int16 | int32 | int64
  | uint | uint8 | uint16 | uint32 | uint64

/-- The Go floating-point types `pushArbitraryValue` has a case for. -/
inductive FloatKind
  | float32
  | float64

/-- One field of a struct value as `reflect` shows it: the declared name, the
value of the `luautil` tag key (empty when absent), whether the name is
exported, whether the field is embedded, whether the declared type of the
field is an interface type (its `Kind` is then `Interface` whatever it
holds), and the value `Interface()` returns for the field. -/
structure StructField (α : Type) where
  name : String
  tag : String
  exported : Bool
  embedded : Bool
  ifaceTyped : Bool
  value : α

/-- A Go value as `pushArbitraryValue` receives it in an `interface{}`.
`other` stands for every dynamic type without a case (named scalar types,
arrays, channels, functions, ...). A map is the list of its entries in the
order `MapKeys` returns them. -/
inductive GoValue
  | nil
  | bool (b : Bool)
  | int (k : IntKind) (i : Int)
  | float (k : FloatKind) (f : LNumber)
  | str (s : String)
  | bytes (s : String)
  | nilPtr
  | ptr (elem : GoValue)
  | struct (fields : List (StructField GoValue))
  | map (entries : List (GoValue × GoValue))
  | slice (elems : List GoValue)
  | other

/-! ## Engine tables under `RawSet` -/

/-- Key identity inside a table: Go `==` on the scalar kinds. Tables are
compared by reference, and every table stored as a key by this package is
freshly allocated, so a table key never equals a key already present. -/
def LValue.keyEq : LValue → LValue → Bool
  | .nil, .nil => true
  | .bool x, .bool y => x == y
  | .number f, .number g => LNumber.eq f g
  | .str s, .str t => s == t
  | _, _ => false

def LValue.isNil : LValue → Bool
  | .nil => true
  | _ => false

/-- Remove the entry stored under a key. -/
def tableErase : List (LValue × LValue) → LValue → List (LValue × LValue)
  | [], _ => []
  | (k', v') :: rest, k =>
    if LValue.keyEq k' k then rest else (k', v') :: tableErase rest k

/-- Store a non-nil value under a key, replacing the entry already there. -/
def tableInsert : List (LValue × LValue) → LValue → LValue → List (LValue × LValue)
  | [], k, v => [(k, v)]
  | (k', v') :: rest, k, v =>
    if LValue.keyEq k' k then (k', v) :: rest else (k', v') :: tableInsert rest k v

/-- Model of `LTable.RawSet`: assigning `nil` leaves no entry under the key. -/
def rawSet (tb : List (LValue × LValue)) (k v : LValue) : List (LValue × LValue) :=
  if v.isNil then tableErase tb k else tableInsert tb k v

/-- Model of `LTable.RawGet`: the value under a key, `nil` when there is none. -/
def rawGet : List (LValue × LValue) → LValue → LValue
  | [], _ => .nil
  | (k', v') :: rest, k => if LValue.keyEq k' k then v' else rawGet rest k

/-- Model of `LTable.RawSetString`. -/
def rawSetString (tb : List (LValue × LValue)) (key : String) (v : LValue) :
    List (LValue × LValue) :=
  rawSet tb (.str key) v

/-- Model of `LTable.RawSetInt`. -/
def rawSetInt (tb : List (LValue × LValue)) (key : Int) (v : LValue) :
    List (LValue × LValue) :=
  rawSet tb (.number (float64OfInt key)) v

/-! ## `pushArbitraryValue` and the three table builders -/

/-- Go `strings.Split(s, ",")` on the characters of `s`. -/
def splitComma : List Char → List (List Char)
  | [] => [[]]
  | c :: cs =>
    if c = ',' then [] :: splitComma cs
    else
      match splitComma cs with
      | [] => [[c]]
      | p :: ps => (c :: p) :: ps

/-- What the tag of a field decides in `pushTableFromStructInner`. -/
inductive FieldPlan
  | skip
  | inline
  | store (name : String)

/-- The tag handling at the head of the loop body of
`pushTableFromStructInner`. -/
def fieldPlan (declared tag : String) : FieldPlan :=
  if tag ≠ "" then
    let tagParts := (splitComma tag.data).map String.mk
    if tagParts.head? = some "-" then .skip
    else
      let name := if tagParts.head? ≠ some "" then tagParts.head?.getD declared else declared
      if tagParts.tail.head? = some "inline" then .inline else .store name
  else .store declared

mutual
/-- Host value to engine value (`luautil.go`, `pushArbitraryValue`). -/
def pushArbitraryValue : GoValue → Except Panic LValue
  | .nil => .ok .nil
  | .bool b => .ok (.bool b)
  | .int _ i => .ok (.number (float64OfInt i))
  | .float _ f => .ok (.number f)
  | .str s => .ok (.str s)
  | .bytes s => .ok (.str s)
  | .nilPtr => .error .reflect
  | .ptr e => pushArbitraryValue e
  | .struct fields =>
    match pushTableFromStructInner [] fields false with
    | .error p => .error p
    | .ok tb => .ok (.table tb)
  | .map entries =>
    match pushTableFromMapLoop [] entries with
    | .error p => .error p
    | .ok tb => .ok (.table tb)
  | .slice elems =>
    match pushTableFromSliceLoop [] 0 elems with
    | .error p => .error p
    | .ok tb => .ok (.table tb)
  | .other => .error .unknownPushType
/-- The field loop of `pushTableFromStructInner` over the fields not yet
visited. `ro` is the read-only mark `reflect` keeps on a value reached through
an unexported, non-embedded field; `Interface()` panics on a field that
carries it or is itself unexported. An inlined field is passed on as
`v.Field(j)` without `Interface()`, and `NumField` panics on it unless its
kind is `Struct`: it panics for a field declared with an interface type even
when that field holds a record. -/
def pushTableFromStructInner (tb : List (LValue × LValue)) :
    List (StructField GoValue) → Bool → Except Panic (List (LValue × LValue))
  | [], _ => .ok tb
  | ⟨name, tag, exported, embedded, ifaceTyped, value⟩ :: rest, ro =>
    match fieldPlan name tag with
    | .skip => pushTableFromStructInner tb rest ro
    | .inline =>
      match value with
      | .struct inner =>
        if ifaceTyped then .error .reflect
        else
          match pushTableFromStructInner tb inner (ro || (!exported && !embedded)) with
          | .error p => .error p
          | .ok tb' => pushTableFromStructInner tb' rest ro
      | _ => .error .reflect
    | .store key =>
      if ro || !exported then .error .reflect
      else
        match pushArbitraryValue value with
        | .error p => .error p
        | .ok v => pushTableFromStructInner (rawSetString tb key v) rest ro
/-- The loop of `PushTableFromMap` over the keys not yet visited. -/
def pushTableFromMapLoop (tb : List (LValue × LValue)) :
    List (GoValue × GoValue) → Except Panic (List (LValue × LValue))
  | [] => .ok tb
  | (k, v) :: rest =>
    match pushArbitraryValue k with
    | .error p => .error p
    | .ok lk =>
      match pushArbitraryValue v with
      | .error p => .error p
      | .ok lv => pushTableFromMapLoop (rawSet tb lk lv) rest
/-- The loop of `PushTableFromSlice` from index `j` on. -/
def pushTableFromSliceLoop (tb : List (LValue × LValue)) (j : Nat) :
    List GoValue → Except Panic (List (LValue × LValue))
  | [] => .ok tb
  | x :: rest =>
    match pushArbitraryValue x with
    | .error p => .error p
    | .ok lv => pushTableFromSliceLoop (rawSetInt tb ((j : Int) + 1) lv) (j + 1) rest
end

/-- Exported `PushTableFromStruct`: a new table filled by `pushTableFromStructInner`. -/
def PushTableFromStruct (fields : List (StructField GoValue)) : Except Panic LValue :=
  (pushTableFromStructInner [] fields false).map LValue.table

/-- Exported `PushTableFromMap`: a new table filled by the key loop. -/
def PushTableFromMap (entries : List (GoValue × GoValue)) : Except Panic LValue :=
  (pushTableFromMapLoop [] entries).map LValue.table

/-- Exported `PushTableFromSlice`: a new table filled by the index loop. -/
def PushTableFromSlice (elems : List GoValue) : Except Panic LValue :=
  (pushTableFromSliceLoop [] 0 elems).map LValue.table

/-! ## The worker: script cache and request loop -/

/-- What a worker takes from outside the package: the target, the SHA-1 hex
digest behind `quickSha`, the file system behind `os.Open`, whether
`LState.Load` accepts a source text, and `LState.CallByParam` (from the
globals and the function value to the value left on the stack and the new
globals, or nothing when the call raises an error). -/
structure Env where
  arch : Arch
  sha1Hex : String → String
  readFile : String → Option String
  parses : String → Bool
  call : List (String × LValue) → LValue → Option (LValue × List (String × LValue))

/-- A worker (`runner`): its id, the globals of its engine state `l`, and the
set `m` of keys already in the global namespace. `loadCalls` is a ghost
record of every source text handed to `LState.Load`, newest first. -/
structure runner where
  id : Nat
  globals : List (String × LValue)
  m : List String
  loadCalls : List String

/-- Failure of `loadFile` or `loadInline`. -/
inductive LoadError
  | open
  | compile

def quickSha (env : Env) (s : String) : String := env.sha1Hex s

/-- Model of `LState.GetGlobal`. -/
def runner.getGlobal (r : runner) (name : String) : LValue :=
  (mapGet r.globals name).getD .nil

/-- Method `runner.loadFile`: load and cache a script file under the digest of its name. -/
def runner.loadFile (env : Env) (r : runner) (name : String) :
    Except LoadError String × runner :=
  let key := quickSha env name
  if key ∈ r.m then (.ok key, r)
  else
    match env.readFile name with
    | none => (.error .open, r)
    | some text =>
      let r1 := { r with loadCalls := text :: r.loadCalls }
      if env.parses text then
        (.ok key, { r1 with
          globals := mapSet r1.globals key (.function ⟨name, text⟩),
          m := key :: r1.m })
      else (.error .compile, r1)

/-- Method `runner.loadInline`: load and cache inline code under the digest of its text. -/
def runner.loadInline (env : Env) (r : runner) (code : String) :
    Except LoadError String × runner :=
  let key := quickSha env code
  if key ∈ r.m then (.ok key, r)
  else
    let r1 := { r with loadCalls := code :: r.loadCalls }
    if env.parses code then
      (.ok key, { r1 with
        globals := mapSet r1.globals key (.function ⟨key, code⟩),
        m := key :: r1.m })
    else (.error .compile, r1)

/-- A request on `cmdCh`. -/
structure cmd where
  ctx : GoValue
  filename : String
  inline : String

/-- How one loop iteration of `spin` ends for the request: a value sent on
`retCh`, `retCh` closed without a value, or the process brought down
(`Fatalln`, or a panic that nothing recovers). -/
inductive Served
  | replied (v : HostValue)
  | closed
  | fatal

/-- The head of the loop body of `runner.spin`: load the file when the request
names one, else the inline code when there is some, else nothing (`fnName`
stays empty and `err` stays nil). -/
def runner.load (env : Env) (r : runner) (c : cmd) : Except LoadError String × runner :=
  if c.filename ≠ "" then r.loadFile env c.filename
  else if c.inline ≠ "" then r.loadInline env c.inline
  else (.ok "", r)

/-- One iteration of the `for c := range cmdCh` loop of `runner.spin`. -/
def runner.serve (env : Env) (r : runner) (c : cmd) : Served × runner :=
  match r.load env c with
  | (.error _, r1) => (.closed, r1)
  | (.ok fnName, r1) =>
    match pushArbitraryValue c.ctx with
    | .error _ => (.fatal, r1)
    | .ok val =>
      let r2 := { r1 with globals := mapSet r1.globals "ctx" val }
      match env.call r2.globals (r2.getGlobal fnName) with
      | none => (.fatal, r2)
      | some (ret, globals) =>
        let r3 := { r2 with globals := globals }
        match PullArbitraryValue env.arch ret with
        | .error _ => (.fatal, r3)
        | .ok v => (.replied v, r3)

/-- The request loop of `runner.spin` over the requests this worker receives,
in order. Nothing is served once the process is down. -/
def runner.spinLoop (env : Env) : runner → List cmd → List Served
  | _, [] => []
  | r, c :: rest =>
    match r.serve env c with
    | (.fatal, _) => [.fatal]
    | (s, r1) => s :: runner.spinLoop env r1 rest

/-- Method `runner.spin`: the optional init script, then the request loop. -/
def runner.spin (env : Env) (luaInit : String) (r : runner) (cmds : List cmd) :
    List Served :=
  if luaInit ≠ "" then
    match r.loadFile env luaInit with
    | (.error _, _) => [.fatal]
    | (.ok initFnName, r1) =>
      match env.call r1.globals (r1.getGlobal initFnName) with
      | none => [.fatal]
      | some (_, globals) => runner.spinLoop env { r1 with globals := globals } cmds
  else runner.spinLoop env r cmds

/-- What `RunInline` and `RunFile` return from `ret, ok := <-c.retCh`; nothing
when the process went down before an answer. -/
def Served.received : Served → Option (HostValue × Bool)
  | .replied v => some (v, true)
  | .closed => some (.nil, false)
  | .fatal => none

/-- Function `RunInline` against a worker that picks the request up. -/
def RunInline (env : Env) (r : runner) (ctx : GoValue) (code : String) :
    Option (HostValue × Bool) :=
  (r.serve env ⟨ctx, "", code⟩).1.received

/-- Function `RunFile` against a worker that picks the request up. -/
def RunFile (env : Env) (r : runner) (ctx : GoValue) (filename : String) :
    Option (HostValue × Bool) :=
  (r.serve env ⟨ctx, filename, ""⟩).1.received

/-! ## `Alert.Run` -/

namespace Alert

/-- Where a run of `Alert.Run` returns. -/
inductive RunEnd
  | createSearchFailed
  | searchFailed
  | processFailed
  | unpackFailed
  | actionFailed
  | completed

/-- The collaborators of one run: `CreateSearch`, `search.Search`,
`Process.Do` (result and `ok`), `action.ToActioner`, and whether `Do` of the
action at a position of the list returns an error. -/
structure Steps (S R A : Type) where
  createSearch : Option S
  search : S → Option R
  process : R → HostValue × Bool
  toActioner : HostValue → Option A
  doFails : Nat → A → Bool

/-- The type assertion `processRes.([]interface{})`, the zero slice when it
does not hold. -/
def actionsRaw : HostValue → List HostValue
  | .seq xs => xs
  | _ => []

/-- The first loop of `Run`: convert every raw action, stopping at the first
conversion error. -/
def unpackActions {A : Type} (toActioner : HostValue → Option A) :
    List HostValue → Option (List A)
  | [] => some []
  | x :: rest =>
    match toActioner x with
    | none => none
    | some act =>
      match unpackActions toActioner rest with
      | none => none
      | some acts => some (act :: acts)

/-- The second loop of `Run` from position `i` on: the actions `Do` was called
on, in order, and whether one of them failed. -/
def performActions {A : Type} (doFails : Nat → A → Bool) : Nat → List A → List A × Bool
  | _, [] => ([], false)
  | i, act :: rest =>
    if doFails i act then ([act], true)
    else
      let (done, failed) := performActions doFails (i + 1) rest
      (act :: done, failed)

/-- Method `Alert.Run`: the actions `Do` was called on, in order, and where the run
returned. -/
def Run {S R A : Type} (st : Steps S R A) : List A × RunEnd :=
  match st.createSearch with
  | none => ([], .createSearchFailed)
  | some query =>
    match st.search query with
    | none => ([], .searchFailed)
    | some res =>
      match st.process res with
      | (_, false) => ([], .processFailed)
      | (processRes, true) =>
        match unpackActions st.toActioner (actionsRaw processRes) with
        | none => ([], .unpackFailed)
        | some actions =>
          match performActions st.doFails 0 actions with
          | (done, true) => (done, .actionFailed)
          | (done, false) => (done, .completed)

end Alert

/-! ## Vocabulary of the statements -/

/-- The integer a table key stands for: a `float64` that is a whole number
inside the `int` range. -/
def LValue.intKey? : LValue → Option Int
  | .number (.finite m e) =>
    if (LNumber.finite m e).isFloat64 ∧ (LNumber.finite m e).isIntegral ∧
        minInt64 ≤ LNumber.trunc m e ∧ LNumber.trunc m e ≤ maxInt64
    then some (LNumber.trunc m e) else none
  | _ => none

/-- The text of a string key. -/
def LValue.strKey? : LValue → Option String
  | .str s => some s
  | _ => none

/-- A key in stringified form: the text of a string key, the decimal form of
an integer key. -/
def LValue.keyString? (k : LValue) : Option String :=
  match k.intKey? with
  | some i => some (Itoa i)
  | none => k.strKey?

/-- The largest integer key of a table, 0 when no integer key is positive. -/
def maxIntKey (tb : List (LValue × LValue)) : Int :=
  tb.foldl (fun acc kv => match kv.1.intKey? with
    | some i => max acc i
    | none => acc) 0

/-- A table as a script can hand it over with integer and string keys only:
no entry holds `nil`, every key is an integer or a string, and every value
converts. -/
def TableOK (a : Arch) (tb : List (LValue × LValue)) : Prop :=
  ∀ kv ∈ tb, kv.2.isNil = false ∧
    (kv.1.intKey?.isSome ∨ kv.1.strKey?.isSome) ∧
    ∃ hv, pullArbitraryValueInner a kv.2 = .ok hv

/-- Reading a decimal numeral back (used to show `Itoa` loses nothing). -/
def parseDec (cs : List Char) : Nat :=
  cs.foldl (fun acc c => 10 * acc + (c.toNat - 48)) 0

/-- The nil interface value. -/
def GoValue.isNil : GoValue → Bool
  | .nil => true
  | _ => false

/-- The scalars of the host value model: Nil, Bool, Int, Float, String. -/
def GoValue.isScalar : GoValue → Bool
  | .nil => true
  | .bool _ => true
  | .int .int _ => true
  | .float .float64 _ => true
  | .str _ => true
  | _ => false

/-- The scalars a table keeps as they are: Nil, Bool, String, an `int` whose
magnitude fits the 53-bit mantissa of the engine number, and a `float64` that
is not a whole number. -/
def GoValue.roundTrips : GoValue → Bool
  | .nil => true
  | .bool _ => true
  | .str _ => true
  | .int .int i => decide (i.natAbs < 2 ^ 53)
  | .float .float64 f => f.isFloat64 && !f.isIntegral
  | _ => false

/-- The host value that equals a scalar. -/
def GoValue.toHost : GoValue → HostValue
  | .bool b => .bool b
  | .int _ i => .int i
  | .float _ f => .float f
  | .str s => .str s
  | _ => .nil

/-- The engine value a convertible host value is pushed as. -/
def GoValue.pushed (x : GoValue) : LValue :=
  match pushArbitraryValue x with
  | .ok v => v
  | .error _ => .nil

/-- The entries `PushTableFromSlice` leaves for the elements from index `j`
on: element `x` at 1-based key `j + 1`, nothing for a nil element. -/
def sliceEntries : Nat → List GoValue → List (LValue × LValue)
  | _, [] => []
  | j, x :: xs =>
    if x.isNil then sliceEntries (j + 1) xs
    else (.number (.finite ((j + 1 : Nat) : Int) 0), x.pushed) :: sliceEntries (j + 1) xs

/-- The slice read back from a map for the keys `j + 1 .. j + n`. -/
def sliceFrom (m : List (String × HostValue)) (j n : Nat) : List HostValue :=
  (List.range n).map fun (i : Nat) =>
    (mapGet m (Itoa (((j + i + 1 : Nat) : Int)))).getD HostValue.nil

mutual
/-- The key names a record is declared to show: for each field in order,
nothing when it is excluded, the names of the nested record when it is
inlined, its declared or overriding name otherwise. -/
def declaredKeys : List (StructField GoValue) → List String
  | [] => []
  | ⟨name, tag, _, _, _, value⟩ :: rest =>
    match fieldPlan name tag with
    | .skip => declaredKeys rest
    | .inline => recordKeys value ++ declaredKeys rest
    | .store key => key :: declaredKeys rest
/-- The declared key names of a value that is a record. -/
def recordKeys : GoValue → List String
  | .struct inner => declaredKeys inner
  | _ => []
end

/-- Records `pushTableFromStructInner` walks without a panic and without a
nil value: every field that is not excluded is exported, an inlined field is
declared with a record type (not an interface type) and holds a record of the
same kind, and every other field holds a value that converts to an engine
value other than nil. -/
inductive FieldsOK : List (StructField GoValue) → Prop
  | nil : FieldsOK []
  | skip (name tag : String) (exported embedded ifaceTyped : Bool) (value : GoValue)
      (rest : List (StructField GoValue)) :
      fieldPlan name tag = .skip → FieldsOK rest →
      FieldsOK (⟨name, tag, exported, embedded, ifaceTyped, value⟩ :: rest)
  | inline (name tag : String) (embedded : Bool) (inner rest : List (StructField GoValue)) :
      fieldPlan name tag = .inline → FieldsOK inner → FieldsOK rest →
      FieldsOK (⟨name, tag, true, embedded, false, .struct inner⟩ :: rest)
  | store (name tag key : String) (embedded ifaceTyped : Bool) (value : GoValue)
      (rest : List (StructField GoValue)) :
      fieldPlan name tag = .store key →
      pushArbitraryValue value = .ok value.pushed → value.pushed.isNil = false →
      FieldsOK rest →
      FieldsOK (⟨name, tag, true, embedded, ifaceTyped, value⟩ :: rest)

/-- The string keys of a table, in visiting order. -/
def stringKeys (tb : List (LValue × LValue)) : List String :=
  tb.filterMap fun kv => kv.1.strKey?

/-- The record `Foo{1, "wat"}` of `TestTableFromStruct`. -/
def testFoo : GoValue :=
  .struct [⟨"A", "", true, false, false, .int .int 1⟩,
    ⟨"B", "", true, false, false, .str "wat"⟩]

/-- The fields of `Bar{Foo{1, "wat"}, true}` of `TestTableFromStruct`. -/
def testBarFields : List (StructField GoValue) :=
  [⟨"C", "", true, false, false, testFoo⟩, ⟨"D", "d", true, false, false, .bool true⟩]

/-- The fields of `Baz{Bar{Foo{1, "wat"}, true}, "wut", 5}` of
`TestTableFromStruct`: an inlined embedded record, a plain field and an
excluded field. -/
def testBazFields : List (StructField GoValue) :=
  [⟨"Bar", ",inline", true, true, false, .struct testBarFields⟩,
    ⟨"E", "", true, false, false, .str "wut"⟩, ⟨"F", "-", true, false, false, .int .int 5⟩]

/-- The map of `TestTableFromMap`. -/
def testMapEntries : List (GoValue × GoValue) :=
  [(.str "A", .int .int 1), (.int .int 5, .str "FOO"),
    (.bool true, .map [(.str "foo", .str "bar")])]

/-- A worker environment in which every source text loads and every call
raises an error; the digest is taken to be the text itself. -/
def failingEnv : Env :=
  ⟨.amd64, fun s => s, fun _ => none, fun _ => true, fun _ _ => none⟩

/-- A worker environment in which every source text loads and every call
returns `true`. -/
def workingEnv : Env :=
  ⟨.amd64, fun s => s, fun _ => none, fun _ => true, fun g _ => some (.bool true, g)⟩

/-- A worker that has loaded nothing yet. -/
def freshRunner : runner := ⟨0, [], [], []⟩

/-- A run whose script step returns three raw actions, all of which unpack,
and whose second action fails. -/
def testSteps : Alert.Steps Unit Unit String :=
  ⟨some (), fun _ => some (), fun _ => (.seq [.str "a", .str "b", .str "c"], true),
    fun v => match v with
      | .str s => some s
      | _ => none,
    fun i _ => i == 1⟩

/-- A worker environment whose digest is the text itself (so it is injective),
with a script file named `x.lua` holding `return 1` and a script file named
`f()` holding `return 2`; every source text loads except the text `x.lua`,
which is not a program. -/
def collisionEnv : Env :=
  ⟨.amd64, fun s => s,
    fun p => if p = "x.lua" then some "return 1" else if p = "f()" then some "return 2" else none,
    fun s => decide (s ≠ "x.lua"), fun g _ => some (.nil, g)⟩

/-- The table `{"a", "b", "c"}`, with the keys 1, 2 and 3. -/
def testTable123 : List (LValue × LValue) :=
  [(.number (.finite 1 0), .str "a"), (.number (.finite 2 0), .str "b"),
    (.number (.finite 3 0), .str "c")]

end Esalert

/-! # Theorems -/

namespace Esalert

theorem excessBits_small (n : Nat) (h : n < 2 ^ 53) : ∀ k, excessBits n k = 0 := by
  intro k
  induction k with
  | zero => rfl
  | succ k ih =>
    have h2 : (2 : Nat) ^ 53 ≤ 2 ^ (53 + k) := Nat.pow_le_pow_right (by norm_num) (by omega)
    have : ¬ 2 ^ (53 + k) ≤ n := by omega
    simp [excessBits, this, ih]

theorem excessBits_pos (n : Nat) : ∀ k, 0 < excessBits n k →
    2 ^ (52 + excessBits n k) ≤ n := by
  intro k
  induction k with
  | zero => intro h; simp [excessBits] at h
  | succ k ih =>
    intro h
    by_cases hk : 2 ^ (53 + k) ≤ n
    · have e : excessBits n (k + 1) = k + 1 := by simp [excessBits, hk]
      rw [e]
      have : 52 + (k + 1) = 53 + k := by omega
      rw [this]; exact hk
    · have e : excessBits n (k + 1) = excessBits n k := by simp [excessBits, hk]
      rw [e] at h ⊢
      exact ih h

theorem float64OfInt_small (i : Int) (h : i.natAbs < 2 ^ 53) :
    float64OfInt i = .finite i 0 := by
  simp [float64OfInt, excessBits_small _ h]

theorem float64OfInt_finite (i : Int) : ∃ m e, float64OfInt i = .finite m e := by
  unfold float64OfInt
  by_cases h : excessBits i.natAbs 11 = 0
  · exact ⟨i, 0, by simp [h]⟩
  · exact ⟨_, _, if_neg h⟩

theorem float64OfInt_exact (m : Int) (k : Nat) (hm : m.natAbs < 2 ^ 53) :
    LNumber.eq (.finite m k) (float64OfInt (m * 2 ^ k)) = true := by
  have hn : (m * 2 ^ k).natAbs = m.natAbs * 2 ^ k := by
    rw [Int.natAbs_mul, Int.natAbs_pow]; rfl
  by_cases h : excessBits (m * 2 ^ k).natAbs 11 = 0
  · simp [float64OfInt, h, LNumber.eq]
  · have hpos : 0 < excessBits (m * 2 ^ k).natAbs 11 := Nat.pos_of_ne_zero h
    have hle := excessBits_pos _ 11 hpos
    unfold float64OfInt
    simp only [h, if_false]
    generalize excessBits (m * 2 ^ k).natAbs 11 = sh at h hpos hle
    rw [hn] at hle
    have hlt : m.natAbs * 2 ^ k < 2 ^ 53 * 2 ^ k :=
      Nat.mul_lt_mul_of_pos_right hm (by positivity)
    have hshk : sh ≤ k := by
      have h1 : 2 ^ (52 + sh) < 2 ^ (53 + k) := by
        rw [← Nat.pow_add] at hlt; omega
      have := (Nat.pow_lt_pow_iff_right (by norm_num : 1 < 2)).1 h1
      omega
    obtain ⟨d, rfl⟩ : ∃ d, k = sh + d := ⟨k - sh, by omega⟩
    have hdiv : m.natAbs * 2 ^ (sh + d) = (m.natAbs * 2 ^ d) * 2 ^ sh := by
      rw [Nat.pow_add]; ring
    have hpow : 0 < 2 ^ sh := by positivity
    have hr : (m * 2 ^ (sh + d)).natAbs % 2 ^ sh = 0 := by
      rw [hn, hdiv]; exact Nat.mul_mod_left _ _
    have hq : (m * 2 ^ (sh + d)).natAbs / 2 ^ sh = m.natAbs * 2 ^ d := by
      rw [hn, hdiv]; exact Nat.mul_div_cancel _ hpow
    have hhalf : 0 < 2 ^ (sh - 1) := by positivity
    have c1 : ¬ (2 ^ (sh - 1) < 0 ∨ (0 = 2 ^ (sh - 1) ∧ (m.natAbs * 2 ^ d) % 2 = 1)) := by
      omega
    simp only [hr, hq, c1, if_false]
    simp only [LNumber.eq, decide_eq_true_eq]
    have hmin : min ((sh + d : Nat) : Int) (sh : Int) = sh := by
      apply min_eq_right; push_cast; omega
    rw [hmin]
    have e1 : (((sh + d : Nat) : Int) - sh).toNat = d := by push_cast; omega
    have e2 : ((sh : Int) - sh).toNat = 0 := by omega
    rw [e1, e2]
    have hs : (m * 2 ^ (sh + d)).sign = m.sign := by
      rw [Int.sign_mul]
      have : ((2 : Int) ^ (sh + d)).sign = 1 := Int.sign_eq_one_of_pos (by positivity)
      rw [this, mul_one]
    rw [hs]
    push_cast
    have := Int.sign_mul_abs m
    calc m * 2 ^ d = (m.sign * |m|) * 2 ^ d := by rw [this]
      _ = m.sign * (|m| * 2 ^ d) * 1 := by ring
end Esalert

namespace Esalert

theorem goInt_of_small (a : Arch) (m e : Int)
    (h : (LNumber.trunc m e).natAbs < 2 ^ 53) :
    goInt a (.finite m e) = LNumber.trunc m e := by
  have h1 : ¬ LNumber.trunc m e < minInt64 := by
    simp only [minInt64]; omega
  have h2 : ¬ maxInt64 < LNumber.trunc m e := by
    simp only [maxInt64]; omega
  simp [goInt, h1, h2]

theorem goInt_of_inRange (a : Arch) (m e : Int)
    (h1 : minInt64 ≤ LNumber.trunc m e) (h2 : LNumber.trunc m e ≤ maxInt64) :
    goInt a (.finite m e) = LNumber.trunc m e := by
  simp [goInt, not_lt.2 h1, not_lt.2 h2]

theorem trunc_neg_natAbs_le (m e : Int) (he : ¬ 0 ≤ e) :
    (LNumber.trunc m e).natAbs ≤ m.natAbs := by
  simp only [LNumber.trunc, he, if_false, Int.natAbs_tdiv]
  exact Nat.div_le_self _ _

/-- An integral `float64` inside the `int` range converts to that integer. -/
theorem pull_number_integral (a : Arch) (m e : Int)
    (hf : (LNumber.finite m e).isFloat64 = true)
    (hi : (LNumber.finite m e).isIntegral = true)
    (h1 : minInt64 ≤ LNumber.trunc m e) (h2 : LNumber.trunc m e ≤ maxInt64) :
    pullArbitraryValueInner a (.number (.finite m e)) = .ok (.int (LNumber.trunc m e)) ∧
    LNumber.eq (.finite m e) (.finite (LNumber.trunc m e) 0) = true := by
  have hm : m.natAbs < 2 ^ 53 := by
    simp [LNumber.isFloat64] at hf; exact hf.1.1
  have hg := goInt_of_inRange a m e h1 h2
  by_cases he : 0 ≤ e
  · obtain ⟨k, rfl⟩ : ∃ k : Nat, e = k := ⟨e.toNat, (Int.toNat_of_nonneg he).symm⟩
    have ht : LNumber.trunc m k = m * 2 ^ k := by simp [LNumber.trunc]
    have hx := float64OfInt_exact m k hm
    constructor
    · simp only [pullArbitraryValueInner, hg]
      rw [ht, hx]; rfl
    · rw [ht]
      simp [LNumber.eq]
  · have hd : ((2 : Int) ^ (-e).toNat) ∣ m := by
      simpa [LNumber.isIntegral, he] using hi
    have ht : LNumber.trunc m e = m.tdiv (2 ^ (-e).toNat) := by simp [LNumber.trunc, he]
    have hmul : m.tdiv (2 ^ (-e).toNat) * 2 ^ (-e).toNat = m := Int.tdiv_mul_cancel hd
    have hsm : (LNumber.trunc m e).natAbs < 2 ^ 53 :=
      lt_of_le_of_lt (trunc_neg_natAbs_le m e he) hm
    have heq : LNumber.eq (.finite m e) (.finite (LNumber.trunc m e) 0) = true := by
      simp only [LNumber.eq, decide_eq_true_eq]
      have hmin : min e 0 = e := min_eq_left (by omega)
      rw [hmin]
      have e1 : (e - e).toNat = 0 := by omega
      have e2 : (0 - e).toNat = (-e).toNat := by rw [zero_sub]
      rw [e1, e2, ht, hmul]; simp
    constructor
    · simp only [pullArbitraryValueInner, hg, float64OfInt_small _ hsm, heq]
      rfl
    · exact heq

/-- A `float64` that is not a whole number (NaN and the infinities included)
comes back as the same `float64`. -/
theorem pull_number_nonintegral (a : Arch) (f : LNumber)
    (hf : f.isFloat64 = true) (hi : f.isIntegral = false) :
    pullArbitraryValueInner a (.number f) = .ok (.float f) := by
  cases f with
  | finite m e =>
    have hm : m.natAbs < 2 ^ 53 := by
      simp [LNumber.isFloat64] at hf; exact hf.1.1
    simp only [LNumber.isIntegral, Bool.or_eq_false_iff, decide_eq_false_iff_not] at hi
    obtain ⟨he, hd⟩ := hi
    have hsm : (LNumber.trunc m e).natAbs < 2 ^ 53 :=
      lt_of_le_of_lt (trunc_neg_natAbs_le m e he) hm
    have hg := goInt_of_small a m e hsm
    have ht : LNumber.trunc m e = m.tdiv (2 ^ (-e).toNat) := by simp [LNumber.trunc, he]
    have hne : LNumber.eq (.finite m e) (.finite (LNumber.trunc m e) 0) = false := by
      simp only [LNumber.eq, decide_eq_false_iff_not]
      have hmin : min e 0 = e := min_eq_left (by omega)
      rw [hmin]
      have e1 : (e - e).toNat = 0 := by omega
      have e2 : (0 - e).toNat = (-e).toNat := by rw [zero_sub]
      rw [e1, e2]
      intro hc
      apply hd
      refine ⟨LNumber.trunc m e, ?_⟩
      rw [mul_comm, ← hc]; simp
    simp only [pullArbitraryValueInner, hg, float64OfInt_small _ hsm, hne]
    rfl
  | inf n =>
    obtain ⟨m, e, h⟩ := float64OfInt_finite (goInt a (.inf n))
    simp [pullArbitraryValueInner, h, LNumber.eq]
  | nan =>
    simp [pullArbitraryValueInner, LNumber.eq]
end Esalert

namespace Esalert

theorem mem_keys_mapSet {β : Type} (m : List (String × β)) (k : String) (v : β) (s : String) :
    s ∈ (mapSet m k v).map Prod.fst ↔ s = k ∨ s ∈ m.map Prod.fst := by
  induction m with
  | nil => simp [mapSet]
  | cons hd tl ih =>
    obtain ⟨k', v'⟩ := hd
    by_cases h : k' = k
    · subst h; simp [mapSet]
    · simp only [mapSet, h, if_false, List.map_cons, List.mem_cons, ih]
      tauto

theorem pullForEach_cons (a : Arch) (k val : LValue) (rest : List (LValue × LValue))
    (m : List (String × HostValue)) (arrSize : Int) (h : val.isNil = false) :
    pullForEach a ((k, val) :: rest) m arrSize =
      match pullArbitraryValueInner a k with
      | .error p => .error p
      | .ok (.int keyi) =>
        match pullArbitraryValueInner a val with
        | .error p => .error p
        | .ok v =>
          pullForEach a rest (mapSet m (Itoa keyi) v)
            (if 0 ≤ arrSize ∧ arrSize < keyi then keyi else arrSize)
      | .ok (.str key) =>
        match pullArbitraryValueInner a val with
        | .error p => .error p
        | .ok v => pullForEach a rest (mapSet m key v) (-1)
      | .ok _ => .error .typeAssertion := by
  cases val with
  | nil => simp [LValue.isNil] at h
  | _ => rw [pullForEach]; intro hc; cases hc

theorem pull_intKey (a : Arch) (k : LValue) (i : Int) (h : k.intKey? = some i) :
    pullArbitraryValueInner a k = .ok (.int i) := by
  cases k with
  | number f =>
    cases f with
    | finite m e =>
      simp only [LValue.intKey?] at h
      split at h
      · rename_i hc
        obtain ⟨h1, h2, h3, h4⟩ := hc
        cases h
        exact (pull_number_integral a m e h1 h2 h3 h4).1
      · cases h
    | _ => simp [LValue.intKey?] at h
  | _ => simp [LValue.intKey?] at h

theorem pull_strKey (a : Arch) (k : LValue) (s : String) (h : k.strKey? = some s) :
    pullArbitraryValueInner a k = .ok (.str s) ∧ k.intKey? = none := by
  cases k <;> simp [LValue.strKey?] at h
  subst h
  exact ⟨by rw [pullArbitraryValueInner], rfl⟩

end Esalert

namespace Esalert

/-- The running value of `arrSize` over integer keys. -/
theorem arrSize_step (arr i : Int) (h : 0 ≤ arr) :
    (if 0 ≤ arr ∧ arr < i then i else arr) = max arr i := by
  by_cases hlt : arr < i
  · simp [h, hlt, max_eq_right (le_of_lt hlt)]
  · simp [hlt, max_eq_left (not_lt.1 hlt)]

theorem pullForEach_spec (a : Arch) :
    ∀ (es : List (LValue × LValue)) (m : List (String × HostValue)) (arr : Int),
      TableOK a es →
      ∃ m' arr', pullForEach a es m arr = .ok (m', arr') ∧
        (∀ s, s ∈ m'.map Prod.fst ↔
          s ∈ m.map Prod.fst ∨ ∃ kv ∈ es, kv.1.keyString? = some s) ∧
        ((∀ kv ∈ es, kv.1.intKey?.isSome) → 0 ≤ arr →
          arr' = es.foldl (fun acc kv => match kv.1.intKey? with
            | some i => max acc i
            | none => acc) arr ∧ 0 ≤ arr') ∧
        ((arr < 0 ∨ ∃ kv ∈ es, kv.1.strKey?.isSome) → arr' < 0) := by
  intro es
  induction es with
  | nil =>
    intro m arr _
    refine ⟨m, arr, by rw [pullForEach], ?_, ?_, ?_⟩
    · intro s; simp
    · intro _ h; exact ⟨rfl, h⟩
    · intro h
      rcases h with h | ⟨kv, hkv, _⟩
      · exact h
      · cases hkv
  | cons hd tl ih =>
    intro m arr hok
    obtain ⟨k, val⟩ := hd
    have htl : TableOK a tl := fun kv hkv => hok kv (List.mem_cons_of_mem _ hkv)
    obtain ⟨hnil, hkind, hv, hval⟩ := hok (k, val) (List.mem_cons_self _ _)
    simp only at hnil hkind hval
    rw [pullForEach_cons a k val tl m arr hnil]
    cases hik : k.intKey? with
    | some i =>
      have hks : k.keyString? = some (Itoa i) := by simp [LValue.keyString?, hik]
      have hnotstr : k.strKey? = none := by
        cases hsk : k.strKey? with
        | none => rfl
        | some s => rw [(pull_strKey a k s hsk).2] at hik; cases hik
      rw [pull_intKey a k i hik, hval]
      simp only
      obtain ⟨m', arr', he, hkeys, hint, hneg⟩ :=
        ih (mapSet m (Itoa i) hv) (if 0 ≤ arr ∧ arr < i then i else arr) htl
      refine ⟨m', arr', he, ?_, ?_, ?_⟩
      · intro s
        rw [hkeys s, mem_keys_mapSet]
        constructor
        · rintro ((h | h) | ⟨kv, hkv, h⟩)
          · exact Or.inr ⟨(k, val), List.mem_cons_self _ _, by rw [h]; exact hks⟩
          · exact Or.inl h
          · exact Or.inr ⟨kv, List.mem_cons_of_mem _ hkv, h⟩
        · rintro (h | ⟨kv, hkv, h⟩)
          · exact Or.inl (Or.inr h)
          · rcases List.mem_cons.1 hkv with rfl | hkv
            · simp only [hks, Option.some.injEq] at h
              exact Or.inl (Or.inl h.symm)
            · exact Or.inr ⟨kv, hkv, h⟩
      · intro hall harr
        rw [arrSize_step arr i harr] at hint
        have := hint (fun kv hkv => hall kv (List.mem_cons_of_mem _ hkv))
          (le_trans harr (le_max_left _ _))
        simp only [List.foldl_cons, hik]
        exact this
      · intro h
        apply hneg
        rcases h with h | ⟨kv, hkv, h⟩
        · left
          have : ¬ (0 ≤ arr ∧ arr < i) := fun hc => absurd hc.1 (not_le.2 h)
          simp only [this, if_false]; exact h
        · rcases List.mem_cons.1 hkv with rfl | hkv
          · simp only [hnotstr] at h; cases h
          · exact Or.inr ⟨kv, hkv, h⟩
    | none =>
      have hsome : k.strKey?.isSome := by
        rcases hkind with h | h
        · rw [hik] at h; cases h
        · exact h
      obtain ⟨s, hs⟩ := Option.isSome_iff_exists.1 hsome
      have hks : k.keyString? = some s := by simp [LValue.keyString?, hik, hs]
      rw [(pull_strKey a k s hs).1, hval]
      simp only
      obtain ⟨m', arr', he, hkeys, _, hneg⟩ := ih (mapSet m s hv) (-1) htl
      refine ⟨m', arr', he, ?_, ?_, ?_⟩
      · intro t
        rw [hkeys t, mem_keys_mapSet]
        constructor
        · rintro ((h | h) | ⟨kv, hkv, h⟩)
          · exact Or.inr ⟨(k, val), List.mem_cons_self _ _, by rw [h]; exact hks⟩
          · exact Or.inl h
          · exact Or.inr ⟨kv, List.mem_cons_of_mem _ hkv, h⟩
        · rintro (h | ⟨kv, hkv, h⟩)
          · exact Or.inl (Or.inr h)
          · rcases List.mem_cons.1 hkv with rfl | hkv
            · simp only [hks, Option.some.injEq] at h
              exact Or.inl (Or.inl h.symm)
            · exact Or.inr ⟨kv, hkv, h⟩
      · intro hall _
        have := hall (k, val) (List.mem_cons_self _ _)
        simp only [hik] at this; cases this
      · intro _
        exact hneg (Or.inl (by norm_num))

theorem sliceOfMap_length (m : List (String × HostValue)) (n : Nat) :
    (sliceOfMap m n).length = n := by
  simp [sliceOfMap]

/-- Claim C1 (amended). For every engine table whose keys are strings or
integers from 1 upward, whose values convert, and whose largest key, when all
keys are integers, is no longer than the longest slice `make` accepts:
`pullArbitraryValueInner` returns a value; it is a Sequence when every key is
an integer, of length the largest key (the empty table giving the empty
Sequence), and it is a Mapping whose keys are exactly the stringified keys of
the table when some key is a string. Tables with an integer key below 1 are
left out. -/
theorem pull_table_classification (a : Arch) (tb : List (LValue × LValue))
    (h : TableOK a tb)
    (_hpos : ∀ kv ∈ tb, ∀ i, kv.1.intKey? = some i → 1 ≤ i)
    (hfit : (∀ kv ∈ tb, kv.1.intKey?.isSome) → maxIntKey tb ≤ (a.maxSliceLen : Int)) :
    ∃ r, pullArbitraryValueInner a (.table tb) = .ok r ∧
      ((∀ kv ∈ tb, kv.1.intKey?.isSome) →
        ∃ xs, r = .seq xs ∧ (xs.length : Int) = maxIntKey tb) ∧
      ((∃ kv ∈ tb, kv.1.strKey?.isSome) →
        ∃ m, r = .map m ∧
          ∀ s, s ∈ m.map Prod.fst ↔ ∃ kv ∈ tb, kv.1.keyString? = some s) := by
  obtain ⟨m', arr', he, hkeys, hint, hneg⟩ := pullForEach_spec a tb [] 0 h
  rw [pullArbitraryValueInner, he]
  simp only
  by_cases hall : ∀ kv ∈ tb, kv.1.intKey?.isSome
  · obtain ⟨harr, hpos⟩ := hint hall (le_refl 0)
    have hle : arr'.toNat ≤ a.maxSliceLen := by
      rw [Int.toNat_le, harr]; exact hfit hall
    refine ⟨.seq (sliceOfMap m' arr'.toNat), by simp [hpos, hle], ?_, ?_⟩
    · intro _
      refine ⟨_, rfl, ?_⟩
      rw [sliceOfMap_length, Int.toNat_of_nonneg hpos, harr]; rfl
    · rintro ⟨kv, hkv, hs⟩
      obtain ⟨s, hs⟩ := Option.isSome_iff_exists.1 hs
      have := hall kv hkv
      rw [(pull_strKey a kv.1 s hs).2] at this; cases this
  · have hstr : ∃ kv ∈ tb, kv.1.strKey?.isSome := by
      by_contra hc
      apply hall
      intro kv hkv
      rcases (h kv hkv).2.1 with h1 | h1
      · exact h1
      · exact absurd ⟨kv, hkv, h1⟩ hc
    have hlt := hneg (Or.inr hstr)
    refine ⟨.map m', by simp [not_le.2 hlt], ?_, ?_⟩
    · intro hc; exact absurd hc hall
    · intro _
      refine ⟨m', rfl, ?_⟩
      intro s
      rw [hkeys s]; simp
end Esalert

namespace Esalert

/-- Witness for C1 (amended): the table with keys 1, 2, 3 meets the hypotheses
and converts as the theorem says. -/
theorem pull_table_classification_witness :
    TableOK .amd64 testTable123 ∧
    (∀ kv ∈ testTable123, ∀ i, kv.1.intKey? = some i → 1 ≤ i) ∧
    maxIntKey testTable123 ≤ (Arch.amd64.maxSliceLen : Int) ∧
    ∃ r, pullArbitraryValueInner .amd64 (.table testTable123) = .ok r ∧
      ((∀ kv ∈ testTable123, kv.1.intKey?.isSome) →
        ∃ xs, r = .seq xs ∧ (xs.length : Int) = maxIntKey testTable123) ∧
      ((∃ kv ∈ testTable123, kv.1.strKey?.isSome) →
        ∃ m, r = .map m ∧
          ∀ s, s ∈ m.map Prod.fst ↔ ∃ kv ∈ testTable123, kv.1.keyString? = some s) :=
  have h : TableOK .amd64 testTable123 := by
    intro kv hkv
    simp only [testTable123, List.mem_cons, List.mem_singleton, List.not_mem_nil,
      or_false] at hkv
    rcases hkv with rfl | rfl | rfl
    · exact ⟨rfl, Or.inl rfl, _, rfl⟩
    · exact ⟨rfl, Or.inl rfl, _, rfl⟩
    · exact ⟨rfl, Or.inl rfl, _, rfl⟩
  have hpos : ∀ kv ∈ testTable123, ∀ i, kv.1.intKey? = some i → 1 ≤ i := by
    intro kv hkv i hi
    simp only [testTable123, List.mem_cons, List.mem_singleton, List.not_mem_nil,
      or_false] at hkv
    rcases hkv with rfl | rfl | rfl
    · have e : (LValue.number (.finite 1 0)).intKey? = some 1 := rfl
      rw [e] at hi; cases hi; decide
    · have e : (LValue.number (.finite 2 0)).intKey? = some 2 := rfl
      rw [e] at hi; cases hi; decide
    · have e : (LValue.number (.finite 3 0)).intKey? = some 3 := rfl
      rw [e] at hi; cases hi; decide
  have hfit : maxIntKey testTable123 ≤ (Arch.amd64.maxSliceLen : Int) := by decide
  ⟨h, hpos, hfit, pull_table_classification .amd64 testTable123 h hpos (fun _ => hfit)⟩

/-- Counterexample to C1 as stated: the table with keys 1, 2, 4 (a gap at 3)
has every key an integer but its keys are not 1..max; it converts to a
4-element Sequence with `nil` in the third place, on either target, not to a
Mapping with keys "1", "2", "4". -/
theorem pull_table_gap_is_sequence :
    pullArbitraryValueInner .amd64
        (.table [(.number (.finite 1 0), .str "a"), (.number (.finite 2 0), .str "b"),
          (.number (.finite 4 0), .str "c")]) =
      .ok (.seq [.str "a", .str "b", .nil, .str "c"]) ∧
    pullArbitraryValueInner .arm64
        (.table [(.number (.finite 1 0), .str "a"), (.number (.finite 2 0), .str "b"),
          (.number (.finite 4 0), .str "c")]) =
      .ok (.seq [.str "a", .str "b", .nil, .str "c"]) :=
  ⟨rfl, rfl⟩

/-- A table whose only key is 2^62: every key is an integer, `arrSize` is 2^62,
and `make([]interface{}, arrSize)` panics. -/
theorem pull_table_huge_key_panics :
    pullArbitraryValueInner .amd64 (.table [(.number (.finite 1 62), .str "x")]) =
      .error .makeslice :=
  rfl

/-- Claim C4 (amended). For every `float64` engine number f:
when f is a whole number inside the `int` range, `pullArbitraryValueInner`
returns the integer equal to f; when f is not a whole number (NaN and the
infinities included) it returns the float f. -/
theorem pull_number_collapse (a : Arch) (f : LNumber) (hf : f.isFloat64 = true) :
    (∀ m e, f = .finite m e → f.isIntegral = true →
      minInt64 ≤ LNumber.trunc m e → LNumber.trunc m e ≤ maxInt64 →
        pullArbitraryValueInner a (.number f) = .ok (.int (LNumber.trunc m e)) ∧
        LNumber.eq f (.finite (LNumber.trunc m e) 0) = true) ∧
    (f.isIntegral = false → pullArbitraryValueInner a (.number f) = .ok (.float f)) := by
  constructor
  · intro m e hfe hi h1 h2
    subst hfe
    exact pull_number_integral a m e hf hi h1 h2
  · intro hi
    exact pull_number_nonintegral a f hf hi

/-- Witness for C4 (amended): 2.0 comes back as the integer 2 and 2.5 as the
float 2.5. -/
theorem pull_number_collapse_witness :
    (LNumber.finite 1 1).isFloat64 = true ∧ (LNumber.finite 5 (-1)).isFloat64 = true ∧
    pullArbitraryValueInner .amd64 (.number (.finite 1 1)) = .ok (.int 2) ∧
    pullArbitraryValueInner .amd64 (.number (.finite 5 (-1))) = .ok (.float (.finite 5 (-1))) :=
  ⟨rfl, rfl,
    ((pull_number_collapse .amd64 (.finite 1 1) (by decide)).1 1 1 rfl (by decide)
      (by decide) (by decide)).1,
    (pull_number_collapse .amd64 (.finite 5 (-1)) (by decide)).2 (by decide)⟩

/-- Counterexample to C4 as stated: 2^63 is a `float64` and a whole number, the
integer equal to it is 2^63, yet the conversion returns the float on amd64 and
the integer 2^63 - 1 on arm64. -/
theorem pull_number_two_pow_63 :
    (LNumber.finite 1 63).isFloat64 = true ∧ (LNumber.finite 1 63).isIntegral = true ∧
    LNumber.eq (.finite 1 63) (.finite (2 ^ 63) 0) = true ∧
    pullArbitraryValueInner .amd64 (.number (.finite 1 63)) = .ok (.float (.finite 1 63)) ∧
    pullArbitraryValueInner .arm64 (.number (.finite 1 63)) = .ok (.int (2 ^ 63 - 1)) :=
  ⟨rfl, rfl, rfl, rfl, rfl⟩

/-- Claim C5 (failing inputs). A table with a boolean key, and a table with the
number key 1.5, both with a string value: `pullArbitraryValueInner` panics on
the type assertion `key.(string)` instead of returning a Mapping. -/
theorem pull_table_bool_or_fraction_key_panics :
    pullArbitraryValueInner .amd64 (.table [(.bool true, .str "x")]) =
      .error .typeAssertion ∧
    pullArbitraryValueInner .amd64 (.table [(.number (.finite 3 (-1)), .str "x")]) =
      .error .typeAssertion ∧
    pullArbitraryValueInner .arm64 (.table [(.bool true, .str "x")]) =
      .error .typeAssertion ∧
    pullArbitraryValueInner .arm64 (.table [(.number (.finite 3 (-1)), .str "x")]) =
      .error .typeAssertion :=
  ⟨rfl, rfl, rfl, rfl⟩

end Esalert

namespace Esalert

theorem digitChar_toNat (d : Nat) (h : d < 10) : (digitChar d).toNat - 48 = d := by
  interval_cases d <;> rfl

theorem decimalAux_append : ∀ (fuel n : Nat) (acc : List Char),
    decimalAux fuel n acc = decimalAux fuel n [] ++ acc := by
  intro fuel
  induction fuel with
  | zero => intro n acc; simp [decimalAux]
  | succ fuel ih =>
    intro n acc
    by_cases h : n < 10
    · simp [decimalAux, h]
    · simp only [decimalAux, h, if_false]
      rw [ih (n / 10) (digitChar (n % 10) :: acc), ih (n / 10) [digitChar (n % 10)]]
      simp

theorem parseDec_snoc (cs : List Char) (c : Char) :
    parseDec (cs ++ [c]) = 10 * parseDec cs + (c.toNat - 48) := by
  simp [parseDec, List.foldl_append]

theorem parseDec_decimalAux : ∀ (fuel n : Nat), n < fuel →
    parseDec (decimalAux fuel n []) = n := by
  intro fuel
  induction fuel with
  | zero => intro n h; omega
  | succ fuel ih =>
    intro n hn
    by_cases h : n < 10
    · simp [decimalAux, h, parseDec, digitChar_toNat n h]
    · simp only [decimalAux, h, if_false]
      rw [decimalAux_append, parseDec_snoc, ih (n / 10) (by omega),
        digitChar_toNat _ (Nat.mod_lt _ (by norm_num))]
      omega

/-- Injectivity of `Itoa` on the non-negative integers. -/
theorem Itoa_ofNat_inj (x y : Nat) (h : Itoa (Int.ofNat x) = Itoa (Int.ofNat y)) : x = y := by
  simp only [Itoa] at h
  have h := congrArg String.data h
  simp only at h
  have hx := parseDec_decimalAux (x + 1) x (by omega)
  have hy := parseDec_decimalAux (y + 1) y (by omega)
  rw [h] at hx
  omega

end Esalert

namespace Esalert

theorem Itoa_natCast_inj (x y : Nat) (h : Itoa ((x : Nat) : Int) = Itoa ((y : Nat) : Int)) :
    x = y :=
  Itoa_ofNat_inj x y h

theorem mapGet_mapSet {β : Type} (m : List (String × β)) (k : String) (v : β) (k' : String) :
    mapGet (mapSet m k v) k' = if k = k' then some v else mapGet m k' := by
  induction m with
  | nil => simp [mapSet, mapGet]
  | cons hd tl ih =>
    obtain ⟨k₀, v₀⟩ := hd
    by_cases h : k₀ = k
    · subst h
      by_cases h' : k₀ = k' <;> simp [mapSet, mapGet, h']
    · by_cases h' : k₀ = k'
      · subst h'
        simp [mapSet, mapGet, h, Ne.symm h]
      · simp [mapSet, mapGet, h, h', ih]

theorem sliceOfMap_eq_sliceFrom (m : List (String × HostValue)) (n : Nat) :
    sliceOfMap m n = sliceFrom m 0 n := by
  simp only [sliceOfMap, sliceFrom]
  apply List.map_congr_left
  intro i _
  simp

theorem sliceFrom_succ (m : List (String × HostValue)) (j n : Nat) :
    sliceFrom m j (n + 1) =
      (mapGet m (Itoa (((j + 1 : Nat) : Int)))).getD HostValue.nil :: sliceFrom m (j + 1) n := by
  simp only [sliceFrom, List.range_succ_eq_map, List.map_cons, List.map_map]
  congr 1
  apply List.map_congr_left
  intro i _
  simp only [Function.comp]
  have : j + 1 + i + 1 = j + (i + 1) + 1 := by omega
  rw [this]

theorem tableInsert_fresh (tb : List (LValue × LValue)) (k v : LValue)
    (h : ∀ kv ∈ tb, LValue.keyEq kv.1 k = false) :
    tableInsert tb k v = tb ++ [(k, v)] := by
  induction tb with
  | nil => rfl
  | cons hd tl ih =>
    obtain ⟨k', v'⟩ := hd
    have h1 := h (k', v') (List.mem_cons_self _ _)
    simp only at h1
    simp only [tableInsert, h1, Bool.false_eq_true, if_false, List.cons_append]
    rw [ih (fun kv hkv => h kv (List.mem_cons_of_mem _ hkv))]

theorem tableErase_fresh (tb : List (LValue × LValue)) (k : LValue)
    (h : ∀ kv ∈ tb, LValue.keyEq kv.1 k = false) :
    tableErase tb k = tb := by
  induction tb with
  | nil => rfl
  | cons hd tl ih =>
    obtain ⟨k', v'⟩ := hd
    have h1 := h (k', v') (List.mem_cons_self _ _)
    simp only at h1
    simp only [tableErase, h1, Bool.false_eq_true, if_false]
    rw [ih (fun kv hkv => h kv (List.mem_cons_of_mem _ hkv))]

theorem isFloat64_int (i : Int) (h : i.natAbs < 2 ^ 53) :
    (LNumber.finite i 0).isFloat64 = true := by
  simp only [LNumber.isFloat64, Bool.and_eq_true, decide_eq_true_eq]
  exact ⟨⟨h, by norm_num⟩, by norm_num⟩

theorem pull_small_int (a : Arch) (i : Int) (h : i.natAbs < 2 ^ 53) :
    pullArbitraryValueInner a (.number (.finite i 0)) = .ok (.int i) := by
  have ht : LNumber.trunc i 0 = i := by simp [LNumber.trunc]
  have h' := pull_number_integral a i 0 (isFloat64_int i h) (by simp [LNumber.isIntegral])
    (by rw [ht]; simp only [minInt64]; omega) (by rw [ht]; simp only [maxInt64]; omega)
  rw [ht] at h'
  exact h'.1

theorem pull_index_key (a : Arch) (k : Nat) (hk : k < 2 ^ 53) :
    pullArbitraryValueInner a (.number (.finite (k : Int) 0)) = .ok (.int (k : Int)) :=
  pull_small_int a (k : Int) (by simpa using hk)

theorem scalar_push (a : Arch) (x : GoValue) (h : x.roundTrips = true) :
    pushArbitraryValue x = .ok x.pushed ∧ x.pushed.isNil = x.isNil ∧
      (x.isNil = false → pullArbitraryValueInner a x.pushed = .ok x.toHost) := by
  cases x with
  | nil => exact ⟨rfl, rfl, fun h => by cases h⟩
  | bool b => exact ⟨rfl, rfl, fun _ => rfl⟩
  | str s => exact ⟨rfl, rfl, fun _ => rfl⟩
  | int k i =>
    have hk : k = .int ∧ i.natAbs < 2 ^ 53 := by
      cases k <;> simp_all [GoValue.roundTrips]
    obtain ⟨rfl, hi⟩ := hk
    have hp : (GoValue.int .int i).pushed = .number (.finite i 0) := by
      simp only [GoValue.pushed, pushArbitraryValue, float64OfInt_small i hi]
    refine ⟨by rw [hp, pushArbitraryValue, float64OfInt_small i hi], by rw [hp]; rfl,
      fun _ => ?_⟩
    rw [hp]
    exact pull_small_int a i hi
  | float k f =>
    have hk : k = .float64 ∧ f.isFloat64 = true ∧ f.isIntegral = false := by
      cases k <;> simp_all [GoValue.roundTrips]
    obtain ⟨rfl, h1, h2⟩ := hk
    exact ⟨rfl, rfl, fun _ => pull_number_nonintegral a f h1 h2⟩
  | _ => simp [GoValue.roundTrips] at h

end Esalert

namespace Esalert

theorem keyEq_index (k j : Nat) (h : k ≤ j) :
    LValue.keyEq (.number (.finite (k : Int) 0)) (.number (.finite ((j + 1 : Nat) : Int) 0)) =
      false := by
  simp only [LValue.keyEq, LNumber.eq, decide_eq_false_iff_not]
  simp
  omega

theorem pushSlice_spec : ∀ (S : List GoValue) (j : Nat) (tb : List (LValue × LValue)),
    (∀ x ∈ S, x.roundTrips = true) → j + S.length < 2 ^ 53 →
    (∀ kv ∈ tb, ∃ k : Nat, kv.1 = .number (.finite (k : Int) 0) ∧ k ≤ j) →
    pushTableFromSliceLoop tb j S = .ok (tb ++ sliceEntries j S) := by
  intro S
  induction S with
  | nil => intro j tb _ _ _; simp [pushTableFromSliceLoop, sliceEntries]
  | cons x xs ih =>
    intro j tb hS hlen htb
    have hx := hS x (List.mem_cons_self _ _)
    obtain ⟨hpush, hnil, _⟩ := scalar_push .amd64 x hx
    have hxs : ∀ y ∈ xs, y.roundTrips = true := fun y hy => hS y (List.mem_cons_of_mem _ hy)
    have hlen' : j + 1 + xs.length < 2 ^ 53 := by
      simp only [List.length_cons] at hlen; omega
    have hfresh : ∀ kv ∈ tb,
        LValue.keyEq kv.1 (.number (.finite ((j + 1 : Nat) : Int) 0)) = false := by
      intro kv hkv
      obtain ⟨k, hk, hle⟩ := htb kv hkv
      rw [hk]; exact keyEq_index k j hle
    have hkey : float64OfInt ((j : Int) + 1) = .finite ((j + 1 : Nat) : Int) 0 := by
      have : ((j : Int) + 1) = ((j + 1 : Nat) : Int) := by push_cast; rfl
      rw [this]
      apply float64OfInt_small
      simp only [Int.natAbs_ofNat]; omega
    rw [pushTableFromSliceLoop, hpush]
    simp only [rawSetInt, rawSet, hkey, hnil]
    by_cases hn : x.isNil = true
    · simp only [hn, if_true, sliceEntries, tableErase_fresh tb _ hfresh]
      exact ih (j + 1) tb hxs hlen' (fun kv hkv => by
        obtain ⟨k, hk, hle⟩ := htb kv hkv
        exact ⟨k, hk, by omega⟩)
    · simp only [hn, if_false, sliceEntries, tableInsert_fresh tb _ _ hfresh]
      rw [ih (j + 1) _ hxs hlen' (fun kv hkv => by
        rcases List.mem_append.1 hkv with hkv | hkv
        · obtain ⟨k, hk, hle⟩ := htb kv hkv
          exact ⟨k, hk, by omega⟩
        · simp only [List.mem_singleton] at hkv
          subst hkv
          exact ⟨j + 1, rfl, le_refl _⟩)]
      simp

theorem pullForEach_sliceEntries (a : Arch) :
    ∀ (S : List GoValue) (j : Nat) (m : List (String × HostValue)) (arr : Int),
      (∀ x ∈ S, x.roundTrips = true) → j + S.length < 2 ^ 53 →
      0 ≤ arr → arr ≤ (j : Int) →
      (∀ k : Nat, j < k → mapGet m (Itoa (k : Int)) = none) →
      ∃ m' arr', pullForEach a (sliceEntries j S) m arr = .ok (m', arr') ∧
        (∀ key, (∀ k : Nat, j < k → key ≠ Itoa (k : Int)) → mapGet m' key = mapGet m key) ∧
        sliceFrom m' j S.length = S.map GoValue.toHost ∧
        0 ≤ arr' ∧
        (∀ h : S ≠ [], (S.getLast h).isNil = false → arr' = ((j + S.length : Nat) : Int)) ∧
        (S = [] → arr' = arr) := by
  intro S
  induction S with
  | nil =>
    intro j m arr _ _ h0 _ _
    refine ⟨m, arr, by simp only [sliceEntries]; rw [pullForEach], fun _ _ => rfl, ?_, h0, ?_,
      fun _ => rfl⟩
    · simp [sliceFrom]
    · intro h; exact absurd rfl h
  | cons x xs ih =>
    intro j m arr hS hlen h0 hle hfresh
    have hx := hS x (List.mem_cons_self _ _)
    obtain ⟨_, hnil, hpull⟩ := scalar_push a x hx
    have hxs : ∀ y ∈ xs, y.roundTrips = true := fun y hy => hS y (List.mem_cons_of_mem _ hy)
    have hlen' : j + 1 + xs.length < 2 ^ 53 := by
      simp only [List.length_cons] at hlen; omega
    have hne : ∀ k : Nat, j + 1 < k → Itoa ((j + 1 : Nat) : Int) ≠ Itoa (k : Int) := by
      intro k hk hc
      have := Itoa_natCast_inj _ _ hc
      omega
    by_cases hn : x.isNil = true
    · have hxnil : x.toHost = .nil := by
        cases x <;> first | rfl | (simp [GoValue.isNil] at hn)
      obtain ⟨m', arr', he, hframe, hslice, hpos, hlast, hemp⟩ :=
        ih (j + 1) m arr hxs hlen' h0 (by push_cast; omega)
          (fun k hk => hfresh k (by omega))
      refine ⟨m', arr', by simp only [sliceEntries, hn, if_true]; exact he, ?_, ?_, hpos, ?_, ?_⟩
      · intro key hkey
        exact hframe key (fun k hk => hkey k (by omega))
      · rw [List.length_cons, sliceFrom_succ, hslice, List.map_cons, hxnil,
          hframe _ (hne), hfresh (j + 1) (by omega)]
        rfl
      · intro hne' hl
        by_cases hxs0 : xs = []
        · subst hxs0
          simp only [List.getLast_singleton] at hl
          rw [hn] at hl; cases hl
        · rw [List.getLast_cons hxs0] at hl
          have := hlast hxs0 hl
          rw [this, List.length_cons]
          congr 1; omega
      · intro h; cases h
    · have hn' : x.isNil = false := by simpa using hn
      have hpn : x.pushed.isNil = false := by rw [hnil]; exact hn'
      have hjk : j + 1 < 2 ^ 53 := by omega
      have harr : (if 0 ≤ arr ∧ arr < ((j + 1 : Nat) : Int) then ((j + 1 : Nat) : Int) else arr) =
          ((j + 1 : Nat) : Int) := by
        have : arr < ((j + 1 : Nat) : Int) := by push_cast; omega
        rw [if_pos ⟨h0, this⟩]
      obtain ⟨m', arr', he, hframe, hslice, hpos, hlast, hemp⟩ :=
        ih (j + 1) (mapSet m (Itoa ((j + 1 : Nat) : Int)) x.toHost) ((j + 1 : Nat) : Int)
          hxs hlen' (by positivity) (le_refl _)
          (fun k hk => by
            rw [mapGet_mapSet, if_neg (hne k hk)]
            exact hfresh k (by omega))
      refine ⟨m', arr', ?_, ?_, ?_, hpos, ?_, ?_⟩
      · simp only [sliceEntries, hn, if_false, Bool.false_eq_true]
        rw [pullForEach_cons a _ _ _ _ _ hpn, pull_index_key a (j + 1) hjk, hpull hn']
        simp only [harr]
        exact he
      · intro key hkey
        rw [hframe key (fun k hk => hkey k (by omega)), mapGet_mapSet,
          if_neg (Ne.symm (hkey (j + 1) (by omega)))]
      · rw [List.length_cons, sliceFrom_succ, hslice, List.map_cons,
          hframe _ hne, mapGet_mapSet, if_pos rfl]
        rfl
      · intro hne' hl
        by_cases hxs0 : xs = []
        · subst hxs0
          rw [hemp rfl]
          simp
        · rw [List.getLast_cons hxs0] at hl
          have := hlast hxs0 hl
          rw [this, List.length_cons]
          congr 1; omega
      · intro h; cases h

end Esalert

namespace Esalert

/-- Claim C2 (amended). For every sequence S no longer than the longest slice
`make` accepts, whose elements are each Nil, Bool, String, an `int` of
magnitude below 2^53 or a `float64` that is not a whole number, and whose last
element is not Nil: `PushTableFromSlice` returns a table, and
`pullArbitraryValueInner` of that table returns the Sequence with the same
length as S and the same elements in the same order. -/
theorem slice_round_trip (a : Arch) (S : List GoValue)
    (hS : ∀ x ∈ S, x.roundTrips = true) (hlen : S.length ≤ a.maxSliceLen)
    (hlast : ∀ h : S ≠ [], (S.getLast h).isNil = false) :
    ∃ t, PushTableFromSlice S = .ok t ∧
      pullArbitraryValueInner a t = .ok (.seq (S.map GoValue.toHost)) := by
  have hmax : a.maxSliceLen < 2 ^ 53 := by cases a <;> decide
  have hpush := pushSlice_spec S 0 [] hS (by omega) (fun kv hkv => by cases hkv)
  refine ⟨.table (sliceEntries 0 S), ?_, ?_⟩
  · simp only [PushTableFromSlice, hpush, List.nil_append]; rfl
  · obtain ⟨m', arr', he, _, hslice, hpos, hl, hemp⟩ :=
      pullForEach_sliceEntries a S 0 [] 0 hS (by omega) (le_refl 0) (by simp)
        (fun k _ => rfl)
    rw [pullArbitraryValueInner, he]
    have harr : arr'.toNat = S.length := by
      by_cases h0 : S = []
      · rw [hemp h0, h0]; rfl
      · rw [hl h0 (hlast h0)]; simp
    simp only [hpos, if_true, harr, hlen]
    rw [sliceOfMap_eq_sliceFrom, hslice]

/-- Witness for C2 (amended): the sequence "foo", true, 4, 2.5. -/
theorem slice_round_trip_witness :
    (∀ x ∈ [GoValue.str "foo", .bool true, .int .int 4, .float .float64 (.finite 5 (-1))],
      x.roundTrips = true) ∧
    ∃ t, PushTableFromSlice
        [GoValue.str "foo", .bool true, .int .int 4, .float .float64 (.finite 5 (-1))] = .ok t ∧
      pullArbitraryValueInner .amd64 t =
        .ok (.seq [.str "foo", .bool true, .int 4, .float (.finite 5 (-1))]) :=
  have h : ∀ x ∈ [GoValue.str "foo", .bool true, .int .int 4,
      .float .float64 (.finite 5 (-1))], x.roundTrips = true := by
    intro x hx
    simp only [List.mem_cons, List.mem_singleton, List.not_mem_nil, or_false] at hx
    rcases hx with rfl | rfl | rfl | rfl <;> rfl
  ⟨h, slice_round_trip .amd64 _ h (by decide) (fun _ => rfl)⟩

/-- Counterexample to C2 as stated: three one-element sequences of scalars that
do not come back equal. Nil comes back as the empty Sequence, the float 2.0 as
the integer 2, and the integer 2^53 + 1 as the integer 2^53. -/
theorem slice_round_trip_fails :
    (GoValue.nil.isScalar = true ∧
      PushTableFromSlice [.nil] = .ok (.table []) ∧
      pullArbitraryValueInner .amd64 (.table []) = .ok (.seq [])) ∧
    ((GoValue.float .float64 (.finite 1 1)).isScalar = true ∧
      PushTableFromSlice [.float .float64 (.finite 1 1)] =
        .ok (.table [(.number (.finite 1 0), .number (.finite 1 1))]) ∧
      pullArbitraryValueInner .amd64 (.table [(.number (.finite 1 0), .number (.finite 1 1))]) =
        .ok (.seq [.int 2])) ∧
    ((GoValue.int .int (2 ^ 53 + 1)).isScalar = true ∧
      PushTableFromSlice [.int .int (2 ^ 53 + 1)] =
        .ok (.table [(.number (.finite 1 0), .number (.finite (2 ^ 52) 1))]) ∧
      pullArbitraryValueInner .amd64
          (.table [(.number (.finite 1 0), .number (.finite (2 ^ 52) 1))]) =
        .ok (.seq [.int (2 ^ 53)])) :=
  ⟨⟨rfl, rfl, rfl⟩, ⟨rfl, rfl, rfl⟩, ⟨rfl, rfl, rfl⟩⟩

end Esalert

namespace Esalert

theorem rawSet_fresh (tb : List (LValue × LValue)) (k v : LValue)
    (h : ∀ kv ∈ tb, LValue.keyEq kv.1 k = false) :
    rawSet tb k v = if v.isNil then tb else tb ++ [(k, v)] := by
  unfold rawSet
  by_cases hv : v.isNil = true
  · simp only [hv, if_true]; exact tableErase_fresh tb k h
  · simp only [hv, if_false, Bool.false_eq_true]; exact tableInsert_fresh tb k v h

theorem rawGet_fresh (tb : List (LValue × LValue)) (k : LValue)
    (h : ∀ kv ∈ tb, LValue.keyEq kv.1 k = false) : rawGet tb k = .nil := by
  induction tb with
  | nil => rfl
  | cons hd tl ih =>
    obtain ⟨k', v'⟩ := hd
    have h1 := h (k', v') (List.mem_cons_self _ _)
    simp only at h1
    simp only [rawGet, h1, Bool.false_eq_true, if_false]
    exact ih (fun kv hkv => h kv (List.mem_cons_of_mem _ hkv))

/-- The entries `PushTableFromMap` leaves when no two keys collide: one per
entry whose value is not nil, in visiting order. -/
theorem pushMap_loop_spec :
    ∀ (entries : List (GoValue × GoValue)) (tb : List (LValue × LValue)),
      (∀ kv ∈ entries, pushArbitraryValue kv.1 = .ok kv.1.pushed ∧
        pushArbitraryValue kv.2 = .ok kv.2.pushed) →
      ∃ tb', pushTableFromMapLoop tb entries = .ok tb' ∧
        ((∀ kv ∈ entries, ∀ e ∈ tb, LValue.keyEq e.1 kv.1.pushed = false) →
          entries.Pairwise (fun p q =>
            LValue.keyEq p.1.pushed q.1.pushed = false ∧
            LValue.keyEq q.1.pushed p.1.pushed = false) →
          tb' = tb ++ (entries.filter (fun kv => !kv.2.pushed.isNil)).map
            (fun kv => (kv.1.pushed, kv.2.pushed))) := by
  intro entries
  induction entries with
  | nil =>
    intro tb _
    exact ⟨tb, by rw [pushTableFromMapLoop], fun _ _ => by simp⟩
  | cons hd tl ih =>
    intro tb hconv
    obtain ⟨k, v⟩ := hd
    obtain ⟨hk, hv⟩ := hconv (k, v) (List.mem_cons_self _ _)
    simp only at hk hv
    obtain ⟨tb', he, hspec⟩ := ih (rawSet tb k.pushed v.pushed)
      (fun kv hkv => hconv kv (List.mem_cons_of_mem _ hkv))
    refine ⟨tb', by rw [pushTableFromMapLoop, hk, hv]; exact he, ?_⟩
    intro hfresh hpair
    obtain ⟨hhd, htl⟩ := List.pairwise_cons.1 hpair
    have hset := rawSet_fresh tb k.pushed v.pushed
      (fun e he => hfresh (k, v) (List.mem_cons_self _ _) e he)
    rw [hspec (fun kv hkv e he' => by
        rw [hset] at he'
        by_cases hn : v.pushed.isNil = true
        · simp only [hn, if_true] at he'
          exact hfresh kv (List.mem_cons_of_mem _ hkv) e he'
        · simp only [hn, if_false, Bool.false_eq_true] at he'
          rcases List.mem_append.1 he' with he' | he'
          · exact hfresh kv (List.mem_cons_of_mem _ hkv) e he'
          · simp only [List.mem_singleton] at he'
            subst he'
            exact (hhd kv hkv).1) htl, hset]
    by_cases hn : v.pushed.isNil = true
    · simp [hn, List.filter_cons]
    · simp [hn, List.filter_cons]

theorem rawGet_entries :
    ∀ (entries : List (GoValue × GoValue)),
      (∀ kv ∈ entries, LValue.keyEq kv.1.pushed kv.1.pushed = true) →
      entries.Pairwise (fun p q =>
        LValue.keyEq p.1.pushed q.1.pushed = false ∧
        LValue.keyEq q.1.pushed p.1.pushed = false) →
      ∀ kv ∈ entries,
        rawGet ((entries.filter (fun kv => !kv.2.pushed.isNil)).map
          (fun kv => (kv.1.pushed, kv.2.pushed))) kv.1.pushed = kv.2.pushed := by
  intro entries
  induction entries with
  | nil => intro _ _ kv hkv; cases hkv
  | cons hd tl ih =>
    intro hrefl hpair kv hkv
    obtain ⟨hhd, htl⟩ := List.pairwise_cons.1 hpair
    have hotherstl : ∀ e ∈ (tl.filter (fun kv => !kv.2.pushed.isNil)).map
        (fun kv => (kv.1.pushed, kv.2.pushed)), LValue.keyEq e.1 hd.1.pushed = false := by
      intro e he
      obtain ⟨q, hq, rfl⟩ := List.mem_map.1 he
      exact (hhd q (List.mem_filter.1 hq).1).2
    rcases List.mem_cons.1 hkv with rfl | hkv
    · by_cases hn : kv.2.pushed.isNil = true
      · simp only [List.filter_cons, hn, Bool.not_true, Bool.false_eq_true, if_false]
        rw [rawGet_fresh _ _ hotherstl]
        revert hn
        cases kv.2.pushed <;> simp [LValue.isNil]
      · simp only [List.filter_cons, hn, Bool.not_false, if_true, List.map_cons, rawGet,
          hrefl kv (List.mem_cons_self _ _)]
    · have hne : LValue.keyEq hd.1.pushed kv.1.pushed = false := (hhd kv hkv).1
      have hrec := ih (fun q hq => hrefl q (List.mem_cons_of_mem _ hq)) htl kv hkv
      by_cases hn : hd.2.pushed.isNil = true
      · simp only [List.filter_cons, hn, Bool.not_true, Bool.false_eq_true, if_false]
        exact hrec
      · simp only [List.filter_cons, hn, Bool.not_false, if_true, List.map_cons, rawGet, hne,
          Bool.false_eq_true, if_false]
        simpa [hn] using hrec

end Esalert

namespace Esalert

theorem tableInsert_stringKeys (key : String) (v : LValue) :
    ∀ tb : List (LValue × LValue), (∀ kv ∈ tb, ∃ s, kv.1 = .str s) →
      (∀ kv ∈ tableInsert tb (.str key) v, ∃ s, kv.1 = .str s) ∧
      ∀ s, s ∈ stringKeys (tableInsert tb (.str key) v) ↔ s = key ∨ s ∈ stringKeys tb := by
  intro tb
  induction tb with
  | nil =>
    intro _
    refine ⟨?_, ?_⟩
    · intro kv hkv
      simp only [tableInsert, List.mem_singleton] at hkv
      exact ⟨key, by rw [hkv]⟩
    · intro s
      simp [tableInsert, stringKeys, LValue.strKey?]
  | cons hd tl ih =>
    intro hstr
    obtain ⟨k', v'⟩ := hd
    obtain ⟨s', hs'⟩ := hstr (k', v') (List.mem_cons_self _ _)
    simp only at hs'
    subst hs'
    obtain ⟨ih1, ih2⟩ := ih (fun kv hkv => hstr kv (List.mem_cons_of_mem _ hkv))
    by_cases heq : s' = key
    · subst heq
      have hk : LValue.keyEq (.str s') (.str s') = true := by simp [LValue.keyEq]
      simp only [tableInsert, hk, if_true]
      refine ⟨?_, ?_⟩
      · intro kv hkv
        rcases List.mem_cons.1 hkv with rfl | hkv
        · exact ⟨s', rfl⟩
        · exact hstr kv (List.mem_cons_of_mem _ hkv)
      · intro s
        simp [stringKeys, LValue.strKey?]
    · have hk : LValue.keyEq (.str s') (.str key) = false := by simp [LValue.keyEq, heq]
      simp only [tableInsert, hk, Bool.false_eq_true, if_false]
      refine ⟨?_, ?_⟩
      · intro kv hkv
        rcases List.mem_cons.1 hkv with rfl | hkv
        · exact ⟨s', rfl⟩
        · exact ih1 kv hkv
      · intro s
        have := ih2 s
        simp only [stringKeys] at this
        simp only [stringKeys, List.filterMap_cons, LValue.strKey?, List.mem_cons, this]
        tauto

theorem pushStructInner_cons (tb : List (LValue × LValue)) (name tag : String)
    (exported embedded ifaceTyped : Bool) (value : GoValue)
    (rest : List (StructField GoValue)) (ro : Bool) :
    pushTableFromStructInner tb
        (⟨name, tag, exported, embedded, ifaceTyped, value⟩ :: rest) ro =
      match fieldPlan name tag with
      | .skip => pushTableFromStructInner tb rest ro
      | .inline =>
        match value with
        | .struct inner =>
          if ifaceTyped then .error .reflect
          else
            match pushTableFromStructInner tb inner (ro || (!exported && !embedded)) with
            | .error p => .error p
            | .ok tb' => pushTableFromStructInner tb' rest ro
        | _ => .error .reflect
      | .store key =>
        if ro || !exported then .error .reflect
        else
          match pushArbitraryValue value with
          | .error p => .error p
          | .ok v => pushTableFromStructInner (rawSetString tb key v) rest ro := by
  cases value <;> cases hp : fieldPlan name tag <;>
    first
    | (rw [pushTableFromStructInner]; simp only [hp]; done)
    | (rw [pushTableFromStructInner]
       · simp only [hp]
       · intro inner hc; cases hc)

theorem pushStruct_spec (fs : List (StructField GoValue)) (h : FieldsOK fs) :
    ∀ tb : List (LValue × LValue), (∀ kv ∈ tb, ∃ s, kv.1 = .str s) →
      ∃ tb', pushTableFromStructInner tb fs false = .ok tb' ∧
        (∀ kv ∈ tb', ∃ s, kv.1 = .str s) ∧
        ∀ s, s ∈ stringKeys tb' ↔ s ∈ stringKeys tb ∨ s ∈ declaredKeys fs := by
  induction h with
  | nil =>
    intro tb htb
    exact ⟨tb, by rw [pushTableFromStructInner], htb, fun s => by simp [declaredKeys]⟩
  | skip name tag exported embedded ifaceTyped value rest hplan _ ih =>
    intro tb htb
    obtain ⟨tb', he, hk, hs⟩ := ih tb htb
    refine ⟨tb', ?_, hk, ?_⟩
    · rw [pushStructInner_cons]; simp only [hplan]; exact he
    · intro s; rw [hs s, declaredKeys]; simp only [hplan]
  | inline name tag embedded inner rest hplan _ _ ih1 ih2 =>
    intro tb htb
    obtain ⟨tb1, he1, hk1, hs1⟩ := ih1 tb htb
    obtain ⟨tb2, he2, hk2, hs2⟩ := ih2 tb1 hk1
    refine ⟨tb2, ?_, hk2, ?_⟩
    · rw [pushStructInner_cons]
      simp only [hplan, Bool.false_eq_true, if_false, Bool.not_true, Bool.false_and,
        Bool.or_false, he1]
      exact he2
    · intro s
      rw [hs2 s, hs1 s, declaredKeys]
      simp only [hplan, recordKeys, List.mem_append]
      tauto
  | store name tag key embedded ifaceTyped value rest hplan hpush hnil _ ih =>
    intro tb htb
    obtain ⟨hk0, hs0⟩ := tableInsert_stringKeys key value.pushed tb htb
    obtain ⟨tb', he, hk, hs⟩ := ih (tableInsert tb (.str key) value.pushed) hk0
    refine ⟨tb', ?_, hk, ?_⟩
    · rw [pushStructInner_cons]
      simp only [hplan, Bool.not_true, Bool.or_self, Bool.false_eq_true, if_false, hpush,
        rawSetString, rawSet, hnil]
      exact he
    · intro s
      rw [hs s, hs0 s, declaredKeys]
      simp only [hplan, List.mem_cons]
      tauto

/-- Claim C3 (amended). For every record whose fields that are not excluded are
exported, whose inlined fields are declared with a record type and hold
records, and whose other fields hold values that convert to engine values
other than nil (at every nesting level reached by inlining):
`PushTableFromStruct` yields a table, every key of that table is a string,
and its key set is exactly the declared-or-overridden names of the fields
that are neither excluded nor inlined together with the keys of each inlined
nested record. -/
theorem struct_key_set (fs : List (StructField GoValue)) (h : FieldsOK fs) :
    ∃ tb, PushTableFromStruct fs = .ok (.table tb) ∧
      (∀ kv ∈ tb, ∃ s, kv.1 = .str s) ∧
      ∀ s, s ∈ stringKeys tb ↔ s ∈ declaredKeys fs := by
  obtain ⟨tb, he, hk, hs⟩ := pushStruct_spec fs h [] (fun kv hkv => by cases hkv)
  refine ⟨tb, by simp only [PushTableFromStruct, he]; rfl, hk, ?_⟩
  intro s
  rw [hs s]
  simp [stringKeys]

end Esalert

namespace Esalert

/-- Witness for C3 (amended): the record of `TestTableFromStruct` meets the
hypothesis; its declared keys are C, d and E. -/
theorem struct_key_set_witness :
    FieldsOK testBazFields ∧ declaredKeys testBazFields = ["C", "d", "E"] ∧
    ∃ tb, PushTableFromStruct testBazFields = .ok (.table tb) ∧
      (∀ kv ∈ tb, ∃ s, kv.1 = .str s) ∧
      ∀ s, s ∈ stringKeys tb ↔ s ∈ declaredKeys testBazFields :=
  have h : FieldsOK testBazFields :=
    .inline "Bar" ",inline" true _ _ rfl
      (.store "C" "" "C" false false testFoo _ rfl rfl rfl
        (.store "D" "d" "d" false false (.bool true) _ rfl rfl rfl .nil))
      (.store "E" "" "E" false false (.str "wut") _ rfl rfl rfl
        (.skip "F" "-" true false false (.int .int 5) _ rfl .nil))
  ⟨h, rfl, struct_key_set testBazFields h⟩

/-- Counterexample to C3 as stated: a record with an exported field A of
interface type holding the nil interface value and a field B holding 1. Field A is neither excluded
nor inlined, yet the table has the single key B. -/
theorem struct_nil_field_has_no_key :
    declaredKeys
        [⟨"A", "", true, false, true, .nil⟩, ⟨"B", "", true, false, false, .int .int 1⟩] =
      ["A", "B"] ∧
    PushTableFromStruct
        [⟨"A", "", true, false, true, .nil⟩, ⟨"B", "", true, false, false, .int .int 1⟩] =
      .ok (.table [(.str "B", .number (.finite 1 0))]) :=
  ⟨rfl, rfl⟩

/-- An inlined field declared with an interface type and holding a record:
`NumField` panics on it, so no table is produced. -/
theorem struct_inline_interface_field_panics :
    PushTableFromStruct [⟨"R", ",inline", true, false, true, testFoo⟩] = .error .reflect ∧
    PushTableFromStruct [⟨"R", ",inline", true, false, false, testFoo⟩] =
      .ok (.table [(.str "A", .number (.finite 1 0)), (.str "B", .str "wat")]) :=
  ⟨rfl, rfl⟩

/-- Claim C6 (amended). `PushTableFromMap` does not look at the kind of a key: for
every mapping whose keys and values all convert it returns a table. When in
addition the converted keys are scalar engine values (each equal to itself,
which leaves out NaN and tables) and pairwise different, the table holds
`table[ToEngine(k)] = ToEngine(v)` for every entry. -/
theorem pushMap_returns_table (entries : List (GoValue × GoValue))
    (hconv : ∀ kv ∈ entries, pushArbitraryValue kv.1 = .ok kv.1.pushed ∧
      pushArbitraryValue kv.2 = .ok kv.2.pushed) :
    ∃ tb, PushTableFromMap entries = .ok (.table tb) ∧
      ((∀ kv ∈ entries, LValue.keyEq kv.1.pushed kv.1.pushed = true) →
        entries.Pairwise (fun p q =>
          LValue.keyEq p.1.pushed q.1.pushed = false ∧
          LValue.keyEq q.1.pushed p.1.pushed = false) →
        ∀ kv ∈ entries, rawGet tb kv.1.pushed = kv.2.pushed) := by
  obtain ⟨tb, he, hspec⟩ := pushMap_loop_spec entries [] hconv
  refine ⟨tb, by simp only [PushTableFromMap, he]; rfl, ?_⟩
  intro hrefl hpair kv hkv
  rw [hspec (fun _ _ e he' => by cases he') hpair, List.nil_append]
  exact rawGet_entries entries hrefl hpair kv hkv

/-- Witness for C6 (amended): the map of `TestTableFromMap`, with a string, a
number and a boolean key. -/
theorem pushMap_returns_table_witness :
    (∀ kv ∈ testMapEntries, pushArbitraryValue kv.1 = .ok kv.1.pushed ∧
      pushArbitraryValue kv.2 = .ok kv.2.pushed) ∧
    ∃ tb, PushTableFromMap testMapEntries = .ok (.table tb) ∧
      ((∀ kv ∈ testMapEntries, LValue.keyEq kv.1.pushed kv.1.pushed = true) →
        testMapEntries.Pairwise (fun p q =>
          LValue.keyEq p.1.pushed q.1.pushed = false ∧
          LValue.keyEq q.1.pushed p.1.pushed = false) →
        ∀ kv ∈ testMapEntries, rawGet tb kv.1.pushed = kv.2.pushed) :=
  have h : ∀ kv ∈ testMapEntries, pushArbitraryValue kv.1 = .ok kv.1.pushed ∧
      pushArbitraryValue kv.2 = .ok kv.2.pushed := by
    intro kv hkv
    simp only [testMapEntries, List.mem_cons, List.mem_singleton, List.not_mem_nil,
      or_false] at hkv
    rcases hkv with rfl | rfl | rfl <;> exact ⟨rfl, rfl⟩
  ⟨h, pushMap_returns_table testMapEntries h⟩

/-- Counterexample to C6 as stated: a mapping whose only key is a record
(`struct{A int}{1}`), which converts to a table; `PushTableFromMap` returns a
table holding the entry under that table key and reports no failure. -/
theorem pushMap_record_key_accepted :
    pushArbitraryValue (.struct [⟨"A", "", true, false, false, .int .int 1⟩]) =
      .ok (.table [(.str "A", .number (.finite 1 0))]) ∧
    PushTableFromMap [(.struct [⟨"A", "", true, false, false, .int .int 1⟩], .str "v")] =
      .ok (.table [(.table [(.str "A", .number (.finite 1 0))], .str "v")]) :=
  ⟨rfl, rfl⟩

end Esalert

namespace Esalert

/-- Claim C7 (amended). For every worker and every inline source s.
When s compiles, the first `loadInline(s)` returns the handle `quickSha(s)` and
a second call on the resulting worker is a cache hit: it returns the same
handle and leaves the whole worker (cache, globals and the record of `Load`
calls) unchanged, so it compiles nothing.
When s compiles and its key is not cached yet, the first call hands s to
`Load`, binds the handle to the function compiled from s and caches the key,
so that s is compiled exactly once over both calls; when the key is cached
already, neither call compiles.
When s does not compile and its key is not cached, the call reports the
compile error after handing s to `Load`, leaves cache and globals as they
were, and a second call compiles s again. -/
theorem loadInline_twice (env : Env) (r : runner) (s : String) :
    (env.parses s = true →
      (r.loadInline env s).1 = .ok (quickSha env s) ∧
      ((r.loadInline env s).2.loadInline env s).1 = (r.loadInline env s).1 ∧
      ((r.loadInline env s).2.loadInline env s).2 = (r.loadInline env s).2) ∧
    (env.parses s = true → quickSha env s ∉ r.m →
      (r.loadInline env s).2.loadCalls = s :: r.loadCalls ∧
      (r.loadInline env s).2.getGlobal (quickSha env s) =
        .function ⟨quickSha env s, s⟩ ∧
      quickSha env s ∈ (r.loadInline env s).2.m ∧
      ((r.loadInline env s).2.loadInline env s).2.loadCalls = s :: r.loadCalls) ∧
    (env.parses s = true → quickSha env s ∈ r.m →
      ((r.loadInline env s).2.loadInline env s).2.loadCalls = r.loadCalls) ∧
    (env.parses s = false → quickSha env s ∉ r.m →
      r.loadInline env s = (.error .compile, { r with loadCalls := s :: r.loadCalls }) ∧
      ((r.loadInline env s).2.loadInline env s).2.loadCalls = s :: s :: r.loadCalls) := by
  have hhit : quickSha env s ∈ r.m → r.loadInline env s = (.ok (quickSha env s), r) := by
    intro hm; simp [runner.loadInline, hm]
  have hmiss : env.parses s = true → quickSha env s ∉ r.m →
      r.loadInline env s = (.ok (quickSha env s),
        { r with
          loadCalls := s :: r.loadCalls,
          globals := mapSet r.globals (quickSha env s) (.function ⟨quickSha env s, s⟩),
          m := quickSha env s :: r.m }) := by
    intro hp hm; simp [runner.loadInline, hm, hp]
  have hagain : ({ r with
        loadCalls := s :: r.loadCalls,
        globals := mapSet r.globals (quickSha env s) (.function ⟨quickSha env s, s⟩),
        m := quickSha env s :: r.m } : runner).loadInline env s =
      (.ok (quickSha env s), { r with
        loadCalls := s :: r.loadCalls,
        globals := mapSet r.globals (quickSha env s) (.function ⟨quickSha env s, s⟩),
        m := quickSha env s :: r.m }) := by
    simp [runner.loadInline]
  have hfail : env.parses s = false → quickSha env s ∉ r.m →
      r.loadInline env s = (.error .compile, { r with loadCalls := s :: r.loadCalls }) := by
    intro hp hm; simp [runner.loadInline, hm, hp]
  refine ⟨?_, ?_, ?_, ?_⟩
  · intro hp
    by_cases hm : quickSha env s ∈ r.m
    · rw [hhit hm]; simp only [hhit hm]; exact ⟨trivial, trivial, trivial⟩
    · rw [hmiss hp hm]; simp only [hagain]; exact ⟨trivial, trivial, trivial⟩
  · intro hp hm
    rw [hmiss hp hm]
    simp only [hagain]
    refine ⟨trivial, ?_, List.mem_cons_self _ _, trivial⟩
    simp only [runner.getGlobal, mapGet_mapSet, if_true, Option.getD_some]
  · intro _ hm
    rw [hhit hm]; simp only [hhit hm]
  · intro hp hm
    refine ⟨hfail hp hm, ?_⟩
    rw [hfail hp hm]
    have hm' : quickSha env s ∉ ({ r with loadCalls := s :: r.loadCalls } : runner).m := hm
    simp [runner.loadInline, hm', hp]

/-- Witness for C7 (amended): a fresh worker and the source of `TestRun`, which
compiles and is not cached yet. -/
theorem loadInline_twice_witness :
    workingEnv.parses "return ctx.Name == \"foo\"" = true ∧
    quickSha workingEnv "return ctx.Name == \"foo\"" ∉ freshRunner.m ∧
    (freshRunner.loadInline workingEnv "return ctx.Name == \"foo\"").1 =
      .ok (quickSha workingEnv "return ctx.Name == \"foo\"") ∧
    ((freshRunner.loadInline workingEnv "return ctx.Name == \"foo\"").2.loadInline workingEnv
        "return ctx.Name == \"foo\"").2 =
      (freshRunner.loadInline workingEnv "return ctx.Name == \"foo\"").2 ∧
    ((freshRunner.loadInline workingEnv "return ctx.Name == \"foo\"").2.loadInline workingEnv
        "return ctx.Name == \"foo\"").2.loadCalls =
      "return ctx.Name == \"foo\"" :: freshRunner.loadCalls :=
  ⟨rfl, List.not_mem_nil _,
    ((loadInline_twice workingEnv freshRunner _).1 rfl).1,
    ((loadInline_twice workingEnv freshRunner _).1 rfl).2.2,
    ((loadInline_twice workingEnv freshRunner _).2.1 rfl (List.not_mem_nil _)).2.2.2⟩

/-- Counterexample to C7 as stated: on a worker that has loaded the inline
source `return 1` once before, the source compiles, yet two further calls of
`loadInline` with it hand nothing to `Load`: over these two calls it is
compiled zero times, not once. -/
theorem loadInline_twice_on_cached_key :
    workingEnv.parses "return 1" = true ∧
    (freshRunner.loadInline workingEnv "return 1").2.loadCalls = ["return 1"] ∧
    (((freshRunner.loadInline workingEnv "return 1").2.loadInline workingEnv
        "return 1").2.loadInline workingEnv "return 1").1 = .ok "return 1" ∧
    (((freshRunner.loadInline workingEnv "return 1").2.loadInline workingEnv
        "return 1").2.loadInline workingEnv "return 1").2.loadCalls = ["return 1"] :=
  ⟨rfl, rfl, rfl, rfl⟩

theorem spinLoop_cons_closed (env : Env) (r r1 : runner) (c : cmd) (rest : List cmd)
    (h : r.serve env c = (.closed, r1)) :
    runner.spinLoop env r (c :: rest) = .closed :: runner.spinLoop env r1 rest := by
  rw [runner.spinLoop, h]

theorem spinLoop_cons_fatal (env : Env) (r r1 : runner) (c : cmd) (rest : List cmd)
    (h : r.serve env c = (.fatal, r1)) :
    runner.spinLoop env r (c :: rest) = [.fatal] := by
  rw [runner.spinLoop, h]

/-- Claim C8 (amended). For every request whose script fails to load, the worker
closes the response channel without a value (the caller receives `ok = false`)
and goes on to serve the later requests. For every request whose script loads
and whose context converts but whose invocation fails, the worker brings the
process down: the request gets no answer and no later request is served. -/
theorem serve_load_and_call_failure (env : Env) (r : runner) (c : cmd) :
    (∀ e r1, r.load env c = (.error e, r1) →
      r.serve env c = (.closed, r1) ∧
      (r.serve env c).1.received = some (.nil, false) ∧
      ∀ rest, runner.spinLoop env r (c :: rest) = .closed :: runner.spinLoop env r1 rest) ∧
    (∀ fnName r1 val, r.load env c = (.ok fnName, r1) →
      pushArbitraryValue c.ctx = .ok val →
      env.call (mapSet r1.globals "ctx" val)
        (({ r1 with globals := mapSet r1.globals "ctx" val } : runner).getGlobal fnName) = none →
      (r.serve env c).1 = .fatal ∧
      (r.serve env c).1.received = none ∧
      ∀ rest, runner.spinLoop env r (c :: rest) = [.fatal]) := by
  constructor
  · intro e r1 hl
    have hs : r.serve env c = (.closed, r1) := by simp [runner.serve, hl]
    exact ⟨hs, by rw [hs]; rfl, fun rest => spinLoop_cons_closed env r r1 c rest hs⟩
  · intro fnName r1 val hl hpush hcall
    have hs : r.serve env c =
        (.fatal, { r1 with globals := mapSet r1.globals "ctx" val }) := by
      simp [runner.serve, hl, hpush, hcall]
    exact ⟨by rw [hs], by rw [hs]; rfl, fun rest => spinLoop_cons_fatal env r _ c rest hs⟩

/-- Witness for C8 (amended): with every call failing, a request with inline
code that loads brings the process down. -/
theorem serve_load_and_call_failure_witness :
    freshRunner.load failingEnv ⟨.nil, "", "return 1"⟩ =
      (.ok "return 1", ⟨0, [("return 1", .function ⟨"return 1", "return 1"⟩)],
        ["return 1"], ["return 1"]⟩) ∧
    (freshRunner.serve failingEnv ⟨.nil, "", "return 1"⟩).1 = .fatal :=
  ⟨rfl, ((serve_load_and_call_failure failingEnv freshRunner ⟨.nil, "", "return 1"⟩).2
    "return 1" ⟨0, [("return 1", .function ⟨"return 1", "return 1"⟩)],
        ["return 1"], ["return 1"]⟩ .nil rfl rfl rfl).1⟩

/-- Counterexample to C8 as stated: the inline script loads, its invocation
fails, and the worker does not close the channel and carry on: the outcome is
the process going down, `RunInline` never returns, and the request queued
behind it is not served. -/
theorem call_failure_is_fatal :
    (freshRunner.loadInline failingEnv "return 1").1 = .ok "return 1" ∧
    (freshRunner.serve failingEnv ⟨.nil, "", "return 1"⟩).1 = .fatal ∧
    RunInline failingEnv freshRunner .nil "return 1" = none ∧
    runner.spinLoop failingEnv freshRunner
      [⟨.nil, "", "return 1"⟩, ⟨.nil, "", "return 2"⟩] = [.fatal] :=
  ⟨rfl, rfl, rfl, rfl⟩

end Esalert

namespace Esalert

namespace Alert

theorem unpackActions_none {A : Type} (toActioner : HostValue → Option A) :
    ∀ xs : List HostValue, (∃ x ∈ xs, toActioner x = none) →
      unpackActions toActioner xs = none := by
  intro xs
  induction xs with
  | nil => rintro ⟨x, hx, _⟩; cases hx
  | cons y ys ih =>
    rintro ⟨x, hx, hnone⟩
    cases hy : toActioner y with
    | none => simp [unpackActions, hy]
    | some act =>
      rcases List.mem_cons.1 hx with rfl | hx
      · rw [hy] at hnone; cases hnone
      · simp [unpackActions, hy, ih ⟨x, hx, hnone⟩]

theorem unpackActions_some {A : Type} (toActioner : HostValue → Option A) :
    ∀ (xs : List HostValue) (acts : List A), xs.map toActioner = acts.map some →
      unpackActions toActioner xs = some acts := by
  intro xs
  induction xs with
  | nil =>
    intro acts h
    cases acts with
    | nil => rfl
    | cons _ _ => simp at h
  | cons y ys ih =>
    intro acts h
    cases acts with
    | nil => simp at h
    | cons act rest =>
      simp only [List.map_cons, List.cons.injEq] at h
      simp [unpackActions, h.1, ih rest h.2]

theorem performActions_spec {A : Type} (doFails : Nat → A → Bool) :
    ∀ (acts : List A) (i : Nat),
      ∃ N, N ≤ acts.length ∧ (performActions doFails i acts).1 = acts.take N ∧
        (∀ k act, k + 1 < N → acts[k]? = some act → doFails (i + k) act = false) ∧
        (N < acts.length →
          ∃ act, 1 ≤ N ∧ acts[N - 1]? = some act ∧ doFails (i + (N - 1)) act = true) ∧
        (acts ≠ [] → 1 ≤ N) := by
  intro acts
  induction acts with
  | nil =>
    intro i
    exact ⟨0, le_refl _, rfl, fun k act hk _ => by omega, fun h => by simp at h,
      fun h => absurd rfl h⟩
  | cons a rest ih =>
    intro i
    by_cases hf : doFails i a = true
    · refine ⟨1, by simp, by simp [performActions, hf], fun k act hk _ => by omega, ?_,
        fun _ => le_refl _⟩
      intro _
      exact ⟨a, le_refl _, by simp, by simpa using hf⟩
    · obtain ⟨N, hle, htake, hok, hfail, _⟩ := ih (i + 1)
      have hf' : doFails i a = false := by simpa using hf
      refine ⟨N + 1, by simp; exact hle, ?_, ?_, ?_, fun _ => by omega⟩
      · simp only [performActions, hf', Bool.false_eq_true, if_false, List.take_succ_cons]
        rw [← htake]
      · intro k act hk hget
        cases k with
        | zero =>
          simp only [List.getElem?_cons_zero, Option.some.injEq] at hget
          subst hget
          simpa using hf'
        | succ k =>
          simp only [List.getElem?_cons_succ] at hget
          have := hok k act (by omega) hget
          have e : i + (k + 1) = i + 1 + k := by omega
          rw [e]; exact this
      · intro hlt
        simp only [List.length_cons] at hlt
        obtain ⟨act, h1, hget, hbad⟩ := hfail (by omega)
        refine ⟨act, by omega, ?_, ?_⟩
        · have e : N + 1 - 1 = (N - 1) + 1 := by omega
          rw [e, List.getElem?_cons_succ]; exact hget
        · have e : i + (N + 1 - 1) = i + 1 + (N - 1) := by omega
          rw [e]; exact hbad

theorem Run_of_unpacked {S R A : Type} (st : Steps S R A) (query : S) (res : R)
    (processRes : HostValue) (actions : List A)
    (h1 : st.createSearch = some query) (h2 : st.search query = some res)
    (h3 : st.process res = (processRes, true))
    (h4 : unpackActions st.toActioner (actionsRaw processRes) = some actions) :
    (Run st).1 = (performActions st.doFails 0 actions).1 := by
  simp only [Run, h1, h2, h3, h4]
  cases hp : performActions st.doFails 0 actions with
  | mk done failed => cases failed <;> rfl

/-- The action part of a run whose process step returned `ok`: when the result is not a list (nil
included) or is the empty list, or some element fails `ToActioner`, no action
is executed; otherwise, with `acts` the M unpacked actions, the executed
actions are the first N of them in order, every executed action before the
N-th succeeded, and when N < M the N-th one failed (so N is the index of the
first failing action, or M when none fails before the last). -/
theorem Run_actions_ok {S R A : Type} (st : Steps S R A) (query : S) (res : R)
    (processRes : HostValue)
    (h1 : st.createSearch = some query) (h2 : st.search query = some res)
    (h3 : st.process res = (processRes, true)) :
    ((∀ xs, processRes ≠ .seq xs) → (Run st).1 = []) ∧
    (processRes = .seq [] → (Run st).1 = []) ∧
    (∀ xs, processRes = .seq xs → (∃ x ∈ xs, st.toActioner x = none) → (Run st).1 = []) ∧
    (∀ xs acts, processRes = .seq xs → xs.map st.toActioner = acts.map some →
      ∃ N, N ≤ acts.length ∧ (Run st).1 = acts.take N ∧
        (∀ k act, k + 1 < N → acts[k]? = some act → st.doFails k act = false) ∧
        (N < acts.length →
          ∃ act, 1 ≤ N ∧ acts[N - 1]? = some act ∧ st.doFails (N - 1) act = true) ∧
        (acts ≠ [] → 1 ≤ N)) := by
  refine ⟨?_, ?_, ?_, ?_⟩
  · intro hno
    have hraw : actionsRaw processRes = [] := by
      cases processRes <;> first | rfl | exact absurd rfl (hno _)
    rw [Run_of_unpacked st query res processRes [] h1 h2 h3 (by rw [hraw]; rfl)]
    rfl
  · intro hemp
    subst hemp
    rw [Run_of_unpacked st query res _ [] h1 h2 h3 rfl]
    rfl
  · intro xs hxs hbad
    subst hxs
    have := unpackActions_none st.toActioner xs hbad
    simp only [Run, h1, h2, h3, actionsRaw, this]
  · intro xs acts hxs hall
    subst hxs
    have hu := unpackActions_some st.toActioner xs acts hall
    rw [Run_of_unpacked st query res _ acts h1 h2 h3 hu]
    obtain ⟨N, hle, htake, hok, hfail, hpos⟩ := performActions_spec st.doFails acts 0
    refine ⟨N, hle, htake, ?_, ?_, hpos⟩
    · intro k act hk hget
      have := hok k act hk hget
      rwa [Nat.zero_add] at this
    · intro hlt
      obtain ⟨act, h1', hget, hbad⟩ := hfail hlt
      exact ⟨act, h1', hget, by rwa [Nat.zero_add] at hbad⟩

/-- Claim C9. For every run of `Alert.Run` in which `CreateSearch` and the search
succeed: when the process step fails, or its result is not a list (nil
included) or is the empty list, or some element fails `ToActioner`, no action
is executed; otherwise, with `acts` the M unpacked actions, the executed
actions are the first N of them in order, every executed action before the
N-th succeeded, and when N < M the N-th one failed (so N is the index of the
first failing action, or M when none fails), and actions N+1..M are never
executed. -/
theorem Run_actions {S R A : Type} (st : Steps S R A) (query : S) (res : R)
    (h1 : st.createSearch = some query) (h2 : st.search query = some res) :
    ((st.process res).2 = false → (Run st).1 = []) ∧
    ((st.process res).2 = true →
      ((∀ xs, (st.process res).1 ≠ .seq xs) → (Run st).1 = []) ∧
      ((st.process res).1 = .seq [] → (Run st).1 = []) ∧
      (∀ xs, (st.process res).1 = .seq xs → (∃ x ∈ xs, st.toActioner x = none) →
        (Run st).1 = []) ∧
      (∀ xs acts, (st.process res).1 = .seq xs → xs.map st.toActioner = acts.map some →
        ∃ N, N ≤ acts.length ∧ (Run st).1 = acts.take N ∧
          (∀ k act, k + 1 < N → acts[k]? = some act → st.doFails k act = false) ∧
          (N < acts.length →
            ∃ act, 1 ≤ N ∧ acts[N - 1]? = some act ∧ st.doFails (N - 1) act = true) ∧
          (acts ≠ [] → 1 ≤ N))) := by
  cases hp : st.process res with
  | mk processRes ok =>
    constructor
    · intro hok
      simp only at hok
      subst hok
      simp only [Run, h1, h2, hp]
    · intro hok
      simp only at hok
      subst hok
      exact Run_actions_ok st query res processRes h1 h2 hp

/-- Witness for C9: three raw actions that unpack, the second of which fails:
the first two are executed, the third is not. -/
theorem Run_actions_witness :
    testSteps.createSearch = some () ∧ testSteps.search () = some () ∧
    testSteps.process () = (.seq [.str "a", .str "b", .str "c"], true) ∧
    (Run testSteps).1 = ["a", "b"] ∧
    ∃ N, N ≤ ["a", "b", "c"].length ∧ (Run testSteps).1 = ["a", "b", "c"].take N ∧
      (∀ k act, k + 1 < N → ["a", "b", "c"][k]? = some act → testSteps.doFails k act = false) ∧
      (N < ["a", "b", "c"].length →
        ∃ act, 1 ≤ N ∧ ["a", "b", "c"][N - 1]? = some act ∧
          testSteps.doFails (N - 1) act = true) ∧
      (["a", "b", "c"] ≠ [] → 1 ≤ N) :=
  ⟨rfl, rfl, rfl, rfl,
    ((Run_actions testSteps () () rfl rfl).2 rfl).2.2.2
      [.str "a", .str "b", .str "c"] ["a", "b", "c"] rfl rfl⟩

end Alert

end Esalert

namespace Esalert

/-- Claim C11 (failing inputs). With an injective digest: after `loadFile` of
the path `x.lua`, `loadInline` of the source text `x.lua` succeeds although
that text does not compile, hands nothing to `Load`, and returns a handle
bound to the compilation of the file contents `return 1`; and after
`loadInline` of the source text `f()`, `loadFile` of the path `f()` succeeds
with a handle bound to the compilation of the text `f()`, not of the file
contents `return 2`. -/
theorem load_path_and_source_share_keys :
    (∀ s t, collisionEnv.sha1Hex s = collisionEnv.sha1Hex t → s = t) ∧
    (collisionEnv.parses "x.lua" = false ∧
      (freshRunner.loadFile collisionEnv "x.lua").1 = .ok "x.lua" ∧
      ((freshRunner.loadFile collisionEnv "x.lua").2.loadInline collisionEnv "x.lua").1 =
        .ok "x.lua" ∧
      ((freshRunner.loadFile collisionEnv "x.lua").2.loadInline collisionEnv "x.lua").2.getGlobal
          "x.lua" = .function ⟨"x.lua", "return 1"⟩ ∧
      ((freshRunner.loadFile collisionEnv "x.lua").2.loadInline collisionEnv
          "x.lua").2.loadCalls = ["return 1"]) ∧
    (collisionEnv.readFile "f()" = some "return 2" ∧
      (freshRunner.loadInline collisionEnv "f()").1 = .ok "f()" ∧
      ((freshRunner.loadInline collisionEnv "f()").2.loadFile collisionEnv "f()").1 =
        .ok "f()" ∧
      ((freshRunner.loadInline collisionEnv "f()").2.loadFile collisionEnv "f()").2.getGlobal
          "f()" = .function ⟨"f()", "f()"⟩ ∧
      ((freshRunner.loadInline collisionEnv "f()").2.loadFile collisionEnv "f()").2.loadCalls =
        ["f()"]) :=
  ⟨fun _ _ h => h, ⟨rfl, rfl, rfl, rfl, rfl⟩, ⟨rfl, rfl, rfl, rfl, rfl⟩⟩

/-- Claim C12 (failing inputs). Tables whose keys are integers or strings and
that lose an entry in `pullArbitraryValueInner`: the table with the single
key 0 becomes the empty Sequence; the table with keys -1 and 1 becomes a
one-element Sequence; the table with the number key 1 and the string key "1"
becomes a Mapping with the single key "1", whichever entry is visited first. -/
theorem pull_table_drops_entries :
    ((LValue.number (.finite 0 0)).intKey? = some 0 ∧
      pullArbitraryValueInner .amd64 (.table [(.number (.finite 0 0), .str "a")]) =
        .ok (.seq []) ∧
      pullArbitraryValueInner .arm64 (.table [(.number (.finite 0 0), .str "a")]) =
        .ok (.seq [])) ∧
    ((LValue.number (.finite (-1) 0)).intKey? = some (-1) ∧
      (LValue.number (.finite 1 0)).intKey? = some 1 ∧
      pullArbitraryValueInner .amd64
          (.table [(.number (.finite (-1) 0), .str "x"), (.number (.finite 1 0), .str "y")]) =
        .ok (.seq [.str "y"]) ∧
      pullArbitraryValueInner .arm64
          (.table [(.number (.finite (-1) 0), .str "x"), (.number (.finite 1 0), .str "y")]) =
        .ok (.seq [.str "y"])) ∧
    ((LValue.str "1").strKey? = some "1" ∧
      pullArbitraryValueInner .amd64
          (.table [(.number (.finite 1 0), .str "a"), (.str "1", .str "b")]) =
        .ok (.map [("1", .str "b")]) ∧
      pullArbitraryValueInner .amd64
          (.table [(.str "1", .str "b"), (.number (.finite 1 0), .str "a")]) =
        .ok (.map [("1", .str "a")]) ∧
      pullArbitraryValueInner .arm64
          (.table [(.number (.finite 1 0), .str "a"), (.str "1", .str "b")]) =
        .ok (.map [("1", .str "b")])) :=
  ⟨⟨rfl, rfl, rfl⟩, ⟨rfl, rfl, rfl, rfl⟩, ⟨rfl, rfl, rfl, rfl⟩⟩

end Esalert

